import Mathlib

/-!
# Verification of the Komga RAG retrieval pipeline

A shallow embedding of the repository's retrieval pipeline:

* `rag/processing/document_processor.py` — chunking and document processing,
* `rag/retrieval/vector_store.py`        — batch add / search over ChromaDB,
* `rag/retrieval/retriever.py`           — two-stage retrieval with reranking,
* `rag/core/rag_service.py`              — caching service and cache keys,
* `docs_viewer/ai_backend/app/utils/text_utils.py` — sentence splitting.

Python strings are modelled as `List Char` (`Str`), Python `dict`s as
association lists, floats as `ℚ`, and external collaborators (ChromaDB
collection, spaCy sentence model, sentence-transformer encoder, cross-encoder,
the OS file system and clock) as explicit function/value parameters.
-/

/-- Python strings, modelled as their character lists. -/
abbrev Str := List Char

/-- Characters that Python `str.split()` (no argument) treats as separators.
We model the common whitespace characters: space, tab, newline, carriage
return, vertical tab and form feed. -/
def isWs (c : Char) : Bool :=
  c = ' ' || c = '\t' || c = '\n' || c = '\r' || c = '\x0b' || c = '\x0c'

/-- Python `str.split()` with no argument: split on runs of whitespace,
dropping empty tokens.  Structural two-character-lookahead formulation:
a non-whitespace character either starts a fresh token (when followed by
whitespace or the end) or is prepended to the token started by the next
character. -/
def pySplit : Str → List Str
  | [] => []
  | [c] => if isWs c then [] else [[c]]
  | c :: d :: s =>
    if isWs c then pySplit (d :: s)
    else if isWs d then [c] :: pySplit (d :: s)
    else
      match pySplit (d :: s) with
      | t :: ts => (c :: t) :: ts
      | [] => [[c]]

/-- `' '.join(elems)` from Python. -/
def joinSp : List Str → Str
  | [] => []
  | [a] => a
  | a :: b :: l => a ++ ' ' :: joinSp (b :: l)

/-- Python `str.strip()`: remove leading and trailing whitespace. -/
def pyStrip (s : Str) : Str :=
  ((s.dropWhile isWs).reverse.dropWhile isWs).reverse

theorem pySplit_cons_ws (c : Char) (s : Str) (hc : isWs c = true) :
    pySplit (c :: s) = pySplit s := by
  cases s with
  | nil => simp [pySplit, hc]
  | cons d t => simp [pySplit, hc]

theorem pySplit_ne_nil_of_head (d : Char) (s : Str) (hd : isWs d = false) :
    pySplit (d :: s) ≠ [] := by
  cases s with
  | nil => simp [pySplit, hd]
  | cons e t =>
    simp only [pySplit, hd, Bool.false_eq_true, if_false]
    by_cases he : isWs e
    · simp [he]
    · have he' : isWs e = false := by simpa using he
      simp only [he', Bool.false_eq_true, if_false]
      cases pySplit (e :: t) <;> simp

/-- Splitting across an explicit whitespace separator splits independently
on the two sides. -/
theorem pySplit_append_ws (sep : Char) (hsep : isWs sep = true) :
    ∀ x y : Str, pySplit (x ++ sep :: y) = pySplit x ++ pySplit y := by
  intro x
  induction x with
  | nil =>
    intro y
    cases y with
    | nil => simp [pySplit, hsep]
    | cons d s => simp [pySplit, hsep]
  | cons c x' ih =>
    intro y
    by_cases hc : isWs c
    · have hstep : pySplit (c :: (x' ++ sep :: y)) = pySplit (x' ++ sep :: y) :=
        pySplit_cons_ws c _ hc
      have hstep' : pySplit (c :: x') = pySplit x' := pySplit_cons_ws c x' hc
      simpa [hstep, hstep'] using ih y
    · have hc' : isWs c = false := by simpa using hc
      cases x' with
      | nil =>
        -- x = [c]; LHS = pySplit (c :: sep :: y)
        have h1 : pySplit (c :: sep :: y) = [c] :: pySplit (sep :: y) := by
          simp [pySplit, hc', hsep]
        show pySplit (c :: sep :: y) = pySplit [c] ++ pySplit y
        rw [h1, pySplit_cons_ws sep y hsep]
        simp [pySplit, hc']
      | cons d s =>
        by_cases hd : isWs d
        · -- token [c] closed by whitespace d on both sides
          have ihy := ih y
          simp only [List.cons_append] at ihy ⊢
          simp [pySplit, hc', hd, ihy]
        · -- c glued onto the first token of pySplit (d :: s ++ sep :: y)
          have hd' : isWs d = false := by simpa using hd
          have hne' : pySplit (d :: s) ≠ [] := pySplit_ne_nil_of_head d s hd'
          have ihy := ih y
          simp only [List.cons_append] at ihy ⊢
          simp only [pySplit, hc', hd', Bool.false_eq_true, if_false]
          rw [ihy]
          cases h1 : pySplit (d :: s) with
          | nil => exact absurd h1 hne'
          | cons t ts => simp

/-- `' '.join(l)` then `.split()` tokenizes each element independently:
the Python identity behind the chunker's word accounting. -/
theorem pySplit_joinSp (l : List Str) :
    pySplit (joinSp l) = l.flatMap pySplit := by
  induction l with
  | nil => simp [joinSp, pySplit]
  | cons a l ih =>
    cases l with
    | nil => simp [joinSp]
    | cons b t =>
      have : joinSp (a :: b :: t) = a ++ ' ' :: joinSp (b :: t) := rfl
      rw [this, pySplit_append_ws ' ' (by decide) a (joinSp (b :: t)), ih]
      simp

/-- Tokens produced by `pySplit` are nonempty and contain no whitespace. -/
theorem pySplit_token_ok :
    ∀ s : Str, ∀ w ∈ pySplit s, w ≠ [] ∧ ∀ c ∈ w, isWs c = false := by
  intro s
  induction s with
  | nil => simp [pySplit]
  | cons c s ih =>
    cases s with
    | nil =>
      intro w hw
      by_cases hc : isWs c
      · simp [pySplit, hc] at hw
      · have hc' : isWs c = false := by simpa using hc
        simp [pySplit, hc'] at hw
        subst hw
        exact ⟨by simp, by intro x hx; simp at hx; subst hx; exact hc'⟩
    | cons d t =>
      intro w hw
      by_cases hc : isWs c
      · rw [pySplit_cons_ws c _ hc] at hw
        exact ih w hw
      · have hc' : isWs c = false := by simpa using hc
        by_cases hd : isWs d
        · simp only [pySplit, hc', hd, Bool.false_eq_true, if_false, if_true,
            List.mem_cons] at hw
          rcases hw with rfl | hw
          · exact ⟨by simp, by intro x hx; simp at hx; subst hx; exact hc'⟩
          · exact ih w hw
        · have hd' : isWs d = false := by simpa using hd
          simp only [pySplit, hc', hd', Bool.false_eq_true, if_false] at hw
          cases h1 : pySplit (d :: t) with
          | nil => exact absurd h1 (pySplit_ne_nil_of_head d t hd')
          | cons u us =>
            rw [h1] at hw
            simp only [List.mem_cons] at hw
            rcases hw with rfl | hw
            · have hu := ih u (by rw [h1]; simp)
              refine ⟨by simp, ?_⟩
              intro x hx
              rcases List.mem_cons.mp hx with rfl | hx
              · exact hc'
              · exact hu.2 x hx
            · exact ih w (by rw [h1]; simp [hw])

/-- A nonempty whitespace-free string is a single `pySplit` token. -/
theorem pySplit_single (w : Str) (hne : w ≠ []) (hws : ∀ c ∈ w, isWs c = false) :
    pySplit w = [w] := by
  induction w with
  | nil => exact absurd rfl hne
  | cons c s ih =>
    have hc : isWs c = false := hws c (by simp)
    cases s with
    | nil => simp [pySplit, hc]
    | cons d t =>
      have hd : isWs d = false := hws d (by simp)
      have ihs : pySplit (d :: t) = [d :: t] :=
        ih (by simp) (fun x hx => hws x (List.mem_cons_of_mem c hx))
      simp [pySplit, hc, hd, ihs]

/-- Re-splitting the tokens of a split changes nothing. -/
theorem flatMap_pySplit_pySplit (s : Str) :
    (pySplit s).flatMap pySplit = pySplit s := by
  have : ∀ w ∈ pySplit s, pySplit w = [w] := by
    intro w hw
    obtain ⟨h1, h2⟩ := pySplit_token_ok s w hw
    exact pySplit_single w h1 h2
  calc (pySplit s).flatMap pySplit
      = (pySplit s).flatMap (fun w => [w]) := by
        apply List.flatMap_congr
        intro w hw
        exact this w hw
      _ = pySplit s := by simp

example : pySplit "a  b c".data = [['a'], ['b'], ['c']] := by decide
example : pySplit "Dr. Smith".data = [['D', 'r', '.'], ['S', 'm', 'i', 't', 'h']] := by decide
example : joinSp [['a'], ['b', 'c']] = ['a', ' ', 'b', 'c'] := by decide

/-! ## Chunker — `DocumentProcessor._chunk_content` -/

/-- One output chunk of `_chunk_content`: the joined text and its
`word_count` metadata (`chunk_type` is the constant `'text'`). -/
structure Chunk where
  text : Str
  wordCount : ℕ
  deriving DecidableEq, Repr

/-- Python `l[-n:]`: the last `n` elements for `n > 0`; for `n = 0` the
slice `l[0:]` is the whole list. -/
def pyTailSlice (n : ℕ) (l : List α) : List α :=
  if n = 0 then l else l.drop (l.length - n)

/-- Accumulation state of `_chunk_content`: emitted chunks, the
`current_chunk` buffer (a mix of whole sentences and carried-over overlap
words) and the running `current_length` counter. -/
structure ChunkState where
  chunks : List Chunk
  buffer : List Str
  len : ℕ

/-- The loop body of `_chunk_content` for one sentence.  If adding the
sentence would push `current_length` past `chunk_size` (and the buffer is
nonempty), the buffer is emitted as a chunk and the next buffer is seeded
with `' '.join(current_chunk[-overlap:]).split()`; then the sentence is
appended and the counter increased by `len(sentence.split())`. -/
def chunkStep (chunkSize overlap : ℕ) (st : ChunkState) (sentence : Str) : ChunkState :=
  let sentenceLength := (pySplit sentence).length
  if st.buffer ≠ [] ∧ st.len + sentenceLength > chunkSize then
    let closed : Chunk := ⟨joinSp st.buffer, st.len⟩
    let overlapWords := pySplit (joinSp (pyTailSlice overlap st.buffer))
    { chunks := st.chunks ++ [closed],
      buffer := overlapWords ++ [sentence],
      len := overlapWords.length + sentenceLength }
  else
    { st with buffer := st.buffer ++ [sentence], len := st.len + sentenceLength }

/-- Emit the final buffer as a chunk if it is nonempty. -/
def chunkFinal (st : ChunkState) : List Chunk :=
  if st.buffer ≠ [] then st.chunks ++ [⟨joinSp st.buffer, st.len⟩] else st.chunks

/-- `_chunk_content` applied to an already sentence-segmented text.
The sentence list stands for `[sent.text for sent in self.nlp(content).sents]`
(the spaCy model is an external collaborator). -/
def chunkFromSents (sents : List Str) (chunkSize overlap : ℕ) : List Chunk :=
  chunkFinal (sents.foldl (chunkStep chunkSize overlap) ⟨[], [], 0⟩)

/-- `_chunk_content` itself: empty input short-circuits on
`if not content.strip()`, otherwise the splitter (spaCy in the source,
passed here as a parameter) segments the content into sentences which are
then accumulated. -/
def chunkContent (splitter : Str → List Str) (content : Str)
    (chunkSize overlap : ℕ) : List Chunk :=
  if pyStrip content = [] then []
  else chunkFromSents (splitter content) chunkSize overlap

example :
    chunkFromSents ["a b c".data, "d e f".data] 5 2 =
      [⟨"a b c".data, 3⟩, ⟨"a b c d e f".data, 6⟩] := by decide

/-! ### Chunker invariants -/

/-- Word-count bookkeeping invariant: `current_length` equals the number of
`str.split()` words of the buffer, and every emitted chunk's `word_count`
equals the word count of its text. -/
def WordInv (st : ChunkState) : Prop :=
  st.len = (st.buffer.flatMap pySplit).length ∧
  ∀ c ∈ st.chunks, c.wordCount = (pySplit c.text).length

theorem chunkStep_wordInv (chunkSize overlap : ℕ) (st : ChunkState) (sentence : Str)
    (h : WordInv st) : WordInv (chunkStep chunkSize overlap st sentence) := by
  obtain ⟨hlen, hchunks⟩ := h
  unfold chunkStep
  by_cases hcl : st.buffer ≠ [] ∧ st.len + (pySplit sentence).length > chunkSize
  · rw [if_pos hcl]
    constructor
    · have hre : (pySplit (joinSp (pyTailSlice overlap st.buffer))).flatMap pySplit
          = pySplit (joinSp (pyTailSlice overlap st.buffer)) :=
        flatMap_pySplit_pySplit _
      show _ = ((_ ++ [sentence]).flatMap pySplit).length
      rw [List.flatMap_append, hre]
      simp
    · intro c hc
      rcases List.mem_append.mp hc with hc | hc
      · exact hchunks c hc
      · simp only [List.mem_singleton] at hc
        subst hc
        simp only [pySplit_joinSp]
        exact hlen
  · rw [if_neg hcl]
    refine ⟨?_, hchunks⟩
    show st.len + _ = ((st.buffer ++ [sentence]).flatMap pySplit).length
    rw [List.flatMap_append, hlen]
    simp

theorem foldl_chunkStep_wordInv (chunkSize overlap : ℕ) (sents : List Str)
    (st : ChunkState) (h : WordInv st) :
    WordInv (sents.foldl (chunkStep chunkSize overlap) st) := by
  induction sents generalizing st with
  | nil => exact h
  | cons s sents ih => exact ih _ (chunkStep_wordInv chunkSize overlap st s h)

/-- Every chunk produced by `_chunk_content` carries a `word_count` equal to
the `str.split()` word count of its text. -/
theorem chunkFromSents_wordCount (sents : List Str) (chunkSize overlap : ℕ) :
    ∀ c ∈ chunkFromSents sents chunkSize overlap,
      c.wordCount = (pySplit c.text).length := by
  have h := foldl_chunkStep_wordInv chunkSize overlap sents ⟨[], [], 0⟩ ⟨by simp, by simp⟩
  obtain ⟨hlen, hchunks⟩ := h
  intro c hc
  unfold chunkFromSents chunkFinal at hc
  by_cases hb : (sents.foldl (chunkStep chunkSize overlap) ⟨[], [], 0⟩).buffer ≠ []
  · rw [if_pos hb] at hc
    rcases List.mem_append.mp hc with hc | hc
    · exact hchunks c hc
    · simp only [List.mem_singleton] at hc
      subst hc
      simp only [pySplit_joinSp]
      exact hlen
  · rw [if_neg hb] at hc
    exact hchunks c hc

/-- A list of strings each of which has at least one word has at least as
many words in total as elements. -/
theorem length_le_flatMap_pySplit (l : List Str) (h : ∀ w ∈ l, pySplit w ≠ []) :
    l.length ≤ (l.flatMap pySplit).length := by
  induction l with
  | nil => simp
  | cons a l ih =>
    have ha : pySplit a ≠ [] := h a (by simp)
    have hl := ih (fun w hw => h w (List.mem_cons_of_mem a hw))
    have ha1 : 1 ≤ (pySplit a).length := by
      cases hsa : pySplit a with
      | nil => exact absurd hsa ha
      | cons x xs => simp
    calc (a :: l).length = l.length + 1 := by simp [Nat.add_comm]
      _ ≤ (l.flatMap pySplit).length + (pySplit a).length := Nat.add_le_add hl ha1
      _ = (pySplit a).length + (l.flatMap pySplit).length := Nat.add_comm _ _
      _ = ((a :: l).flatMap pySplit).length := by simp

/-- `pyTailSlice` always yields a suffix of the list. -/
theorem pyTailSlice_isSuffix (n : ℕ) (l : List α) : pyTailSlice n l <:+ l := by
  unfold pyTailSlice
  by_cases hn : n = 0
  · rw [if_pos hn]
  · rw [if_neg hn]
    exact List.drop_suffix _ l

theorem flatMap_suffix {l₁ l₂ : List α} (f : α → List β) (h : l₁ <:+ l₂) :
    l₁.flatMap f <:+ l₂.flatMap f := by
  obtain ⟨t, rfl⟩ := h
  exact ⟨t.flatMap f, (List.flatMap_append t l₁ f).symm⟩

/-- The overlap relation between consecutive chunks that the source's
buffer-slice seeding actually guarantees: the later chunk starts with a
suffix of the earlier chunk's words, of size at least
`min overlap (word count of the earlier chunk)` (provided every sentence
has at least one word). -/
def OverlapRel (overlap : ℕ) (c₁ c₂ : Chunk) : Prop :=
  ∃ s : List Str, s <:+ pySplit c₁.text ∧ s <+: pySplit c₂.text ∧
    min overlap (pySplit c₁.text).length ≤ s.length

/-- Loop invariant for the overlap property: emitted chunks are chained by
`OverlapRel`, buffer elements all have at least one word, and the buffer
extends the last emitted chunk by a sufficiently long word suffix. -/
def SeedInv (overlap : ℕ) (st : ChunkState) : Prop :=
  List.Chain' (OverlapRel overlap) st.chunks ∧
  (∀ w ∈ st.buffer, pySplit w ≠ []) ∧
  (∀ c, st.chunks.getLast? = some c →
    ∃ s : List Str, s <:+ pySplit c.text ∧ s <+: st.buffer.flatMap pySplit ∧
      min overlap (pySplit c.text).length ≤ s.length)

/-- The freshly seeded buffer after closing a chunk: its words start with a
suffix of the closed chunk's words of length at least
`min overlap (closed chunk's word count)`. -/
theorem seed_property (overlap : ℕ) (buffer : List Str) (sentence : Str)
    (hbuf : ∀ w ∈ buffer, pySplit w ≠ []) :
    ∃ s : List Str, s <:+ pySplit (joinSp buffer) ∧
      s <+: ((pySplit (joinSp (pyTailSlice overlap buffer)) ++ [sentence]).flatMap pySplit) ∧
      min overlap (pySplit (joinSp buffer)).length ≤ s.length := by
  set seed := pySplit (joinSp (pyTailSlice overlap buffer)) with hseed
  refine ⟨seed, ?_, ?_, ?_⟩
  · rw [hseed, pySplit_joinSp, pySplit_joinSp]
    exact flatMap_suffix pySplit (pyTailSlice_isSuffix overlap buffer)
  · rw [List.flatMap_append]
    rw [hseed, flatMap_pySplit_pySplit]
    exact ⟨[sentence].flatMap pySplit, rfl⟩
  · by_cases hov : overlap = 0
    · simp [hov]
    · by_cases hlen : buffer.length ≤ overlap
      · -- the slice is the whole buffer: the seed is all the words
        have hslice : pyTailSlice overlap buffer = buffer := by
          unfold pyTailSlice
          rw [if_neg hov]
          have : buffer.length - overlap = 0 := Nat.sub_eq_zero_of_le hlen
          rw [this, List.drop_zero]
        rw [hseed, hslice, pySplit_joinSp]
        exact Nat.min_le_right _ _
      · -- the slice has exactly `overlap` elements, each with ≥ 1 word
        push_neg at hlen
        have hslice : pyTailSlice overlap buffer = buffer.drop (buffer.length - overlap) := by
          unfold pyTailSlice
          rw [if_neg hov]
        have hslicelen : (pyTailSlice overlap buffer).length = overlap := by
          rw [hslice, List.length_drop]
          omega
        have hwords : ∀ w ∈ pyTailSlice overlap buffer, pySplit w ≠ [] := by
          intro w hw
          exact hbuf w ((pyTailSlice_isSuffix overlap buffer).mem hw)
        have := length_le_flatMap_pySplit (pyTailSlice overlap buffer) hwords
        rw [hslicelen] at this
        rw [hseed, pySplit_joinSp (pyTailSlice overlap buffer)]
        exact le_trans (Nat.min_le_left _ _) this

theorem chunkStep_seedInv (chunkSize overlap : ℕ) (st : ChunkState) (sentence : Str)
    (hsent : pySplit sentence ≠ []) (h : SeedInv overlap st) :
    SeedInv overlap (chunkStep chunkSize overlap st sentence) := by
  obtain ⟨hchain, hbuf, hlast⟩ := h
  unfold chunkStep
  by_cases hcl : st.buffer ≠ [] ∧ st.len + (pySplit sentence).length > chunkSize
  · rw [if_pos hcl]
    refine ⟨?_, ?_, ?_⟩
    · -- the chain extends to the newly closed chunk
      rw [List.chain'_append]
      refine ⟨hchain, List.chain'_singleton _, ?_⟩
      intro x hx y hy
      rw [Option.mem_def] at hx
      rw [Option.mem_def, List.head?_cons, Option.some.injEq] at hy
      subst hy
      obtain ⟨s, hs1, hs2, hs3⟩ := hlast x hx
      exact ⟨s, hs1, by simpa [pySplit_joinSp] using hs2, hs3⟩
    · -- new buffer elements all have at least one word
      intro w hw
      rcases List.mem_append.mp hw with hw | hw
      · obtain ⟨h1, h2⟩ := pySplit_token_ok _ w hw
        rw [pySplit_single w h1 h2]
        simp
      · simp only [List.mem_singleton] at hw
        subst hw
        exact hsent
    · -- the new buffer extends the closed chunk by the seed
      intro c hc
      simp only [List.getLast?_append, List.getLast?_singleton] at hc
      have hc' : c = Chunk.mk (joinSp st.buffer) st.len := by
        simpa using hc.symm
      subst hc'
      exact seed_property overlap st.buffer sentence hbuf
  · rw [if_neg hcl]
    refine ⟨hchain, ?_, ?_⟩
    · intro w hw
      rcases List.mem_append.mp hw with hw | hw
      · exact hbuf w hw
      · simp only [List.mem_singleton] at hw
        subst hw
        exact hsent
    · intro c hc
      obtain ⟨s, hs1, hs2, hs3⟩ := hlast c hc
      refine ⟨s, hs1, ?_, hs3⟩
      rw [List.flatMap_append]
      obtain ⟨t, ht⟩ := hs2
      exact ⟨t ++ [sentence].flatMap pySplit, by rw [← List.append_assoc, ht]⟩

theorem foldl_chunkStep_seedInv (chunkSize overlap : ℕ) (sents : List Str)
    (st : ChunkState) (hsents : ∀ s ∈ sents, pySplit s ≠ []) (h : SeedInv overlap st) :
    SeedInv overlap (sents.foldl (chunkStep chunkSize overlap) st) := by
  induction sents generalizing st with
  | nil => exact h
  | cons s sents ih =>
    exact ih _ (fun x hx => hsents x (List.mem_cons_of_mem s hx))
      (chunkStep_seedInv chunkSize overlap st s (hsents s (by simp)) h)

/-- Consecutive chunks of `_chunk_content` overlap: each chunk after the
first starts with a suffix of the previous chunk's words whose length is at
least `min overlap (previous chunk's word count)` (for sentences that each
contain at least one word). -/
theorem chunkFromSents_overlap_chain (sents : List Str) (chunkSize overlap : ℕ)
    (hsents : ∀ s ∈ sents, pySplit s ≠ []) :
    List.Chain' (OverlapRel overlap) (chunkFromSents sents chunkSize overlap) := by
  have h := foldl_chunkStep_seedInv chunkSize overlap sents ⟨[], [], 0⟩ hsents
    ⟨List.chain'_nil, by simp, by simp⟩
  obtain ⟨hchain, hbuf, hlast⟩ := h
  unfold chunkFromSents chunkFinal
  by_cases hb : (sents.foldl (chunkStep chunkSize overlap) ⟨[], [], 0⟩).buffer ≠ []
  · rw [if_pos hb]
    rw [List.chain'_append]
    refine ⟨hchain, List.chain'_singleton _, ?_⟩
    intro x hx y hy
    rw [Option.mem_def] at hx
    rw [Option.mem_def, List.head?_cons, Option.some.injEq] at hy
    subst hy
    obtain ⟨s, hs1, hs2, hs3⟩ := hlast x hx
    exact ⟨s, hs1, by simpa [pySplit_joinSp] using hs2, hs3⟩
  · rw [if_neg hb]
    exact hchain

/-! ## Sentence splitting — `TextUtils.split_into_sentences` -/

/-- The abbreviation set of `split_into_sentences` (entries carry no
trailing period). -/
def abbreviations : List Str :=
  ["mr".data, "mrs".data, "ms".data, "dr".data, "prof".data, "vs".data,
   "e.g".data, "i.e".data, "etc".data, "jr".data, "sr".data, "no".data]

/-- Python `str.lower()` (ASCII case folding suffices for the texts and
abbreviations involved). -/
def pyLower (s : Str) : Str := s.map Char.toLower

/-- A character in the class `[.!?]`. -/
def isSentEnd (c : Char) : Bool := c = '.' || c = '!' || c = '?'

/-- `re.sub(r'([.!?])([^\s])', r'\1 \2', text)`: insert a space between a
sentence-ending punctuation mark and an immediately following
non-whitespace character.  Matches are non-overlapping and scanning resumes
after the matched pair, exactly as `re.sub` does. -/
def addSpaces : Str → Str
  | [] => []
  | [c] => [c]
  | c :: d :: s =>
    if isSentEnd c && !isWs d then c :: ' ' :: d :: addSpaces s
    else c :: addSpaces (d :: s)

/-- `word[-1] in '.!?'` for a split token. -/
def endsSentence (word : Str) : Bool :=
  match word.getLast? with
  | some c => isSentEnd c
  | none => false

/-- The `continue` guard of the word loop:
`word.lower() in abbreviations or (len(word) > 1 and word[0].islower() and
word[-1] == '.')`. -/
def abbrevGuard (word : Str) : Bool :=
  abbreviations.contains (pyLower word) ||
  (decide (word.length > 1) &&
    (match word.head? with
     | some c => c.isLower
     | none => false) &&
    (match word.getLast? with
     | some c => decide (c = '.')
     | none => false))

/-- The word loop of `split_into_sentences`: accumulate words into
`current`; a word ending in `.!?` that fails the abbreviation guard closes
the current sentence. -/
def sentenceLoop : List Str → List Str → List Str
  | [], current =>
    if current.isEmpty then []
    else
      let sentence := pyStrip (joinSp current)
      if sentence.isEmpty then [] else [sentence]
  | w :: ws, current =>
    let current' := current ++ [w]
    if endsSentence w then
      if abbrevGuard w then sentenceLoop ws current'
      else
        let sentence := pyStrip (joinSp current')
        (if sentence.isEmpty then [] else [sentence]) ++ sentenceLoop ws []
    else sentenceLoop ws current'

/-- `TextUtils.split_into_sentences`. -/
def splitIntoSentences (text : Str) : List Str :=
  if text.isEmpty then []
  else
    let noNl := (text.map (fun c => if c = '\n' then ' ' else c)).filter (fun c => c ≠ '\r')
    sentenceLoop (pySplit (addSpaces noNl)) []

example :
    splitIntoSentences "Dr. Smith went home. He was tired. Then he slept.".data =
      ["Dr.".data, "Smith went home. He was tired. Then he slept.".data] := by decide

example :
    splitIntoSentences "Hello there! How are you?".data =
      ["Hello there!".data, "How are you?".data] := by decide

/-! ## Python dictionaries as association lists -/

/-- First-match association-list lookup (Python dicts have unique keys, so
first match is the match). -/
def alookup {α : Type} : List (Str × α) → Str → Option α
  | [], _ => none
  | (k, v) :: l, key => if k = key then some v else alookup l key

/-- Left-biased option choice (`x` if present, else `y`). -/
def orO {α : Type} (x y : Option α) : Option α :=
  match x with
  | some v => some v
  | none => y

/-- Python `{**a, **b}`: keys of `a` in order with values overridden by
`b`, followed by the keys of `b` not in `a`. -/
def dictUpdate {α : Type} (a b : List (Str × α)) : List (Str × α) :=
  a.map (fun p => (p.1, (alookup b p.1).getD p.2)) ++
    b.filter (fun p => (alookup a p.1).isNone)

theorem alookup_append {α : Type} (l₁ l₂ : List (Str × α)) (k : Str) :
    alookup (l₁ ++ l₂) k = orO (alookup l₁ k) (alookup l₂ k) := by
  induction l₁ with
  | nil => simp [alookup, orO]
  | cons p l₁ ih =>
    by_cases hk : p.1 = k
    · simp [alookup, hk, orO]
    · simp only [List.cons_append]
      calc alookup (p :: (l₁ ++ l₂)) k = alookup (l₁ ++ l₂) k := by
            simp [alookup, hk]
        _ = orO (alookup l₁ k) (alookup l₂ k) := ih
        _ = orO (alookup (p :: l₁) k) (alookup l₂ k) := by
            simp [alookup, hk]

theorem alookup_filter_keyinv {α : Type} (b : List (Str × α))
    (f g : Str × α → Bool) (k : Str) (h : ∀ v, f (k, v) = g (k, v)) :
    alookup (b.filter f) k = alookup (b.filter g) k := by
  induction b with
  | nil => simp
  | cons p b ih =>
    obtain ⟨k₁, v₁⟩ := p
    by_cases hk : k₁ = k
    · subst hk
      rw [List.filter_cons, List.filter_cons, h v₁]
      cases hg : g (k₁, v₁)
      · simp only [Bool.false_eq_true, if_false]
        exact ih
      · simp [alookup]
    · rw [List.filter_cons, List.filter_cons]
      have hskip : ∀ l : List (Str × α), alookup ((k₁, v₁) :: l) k = alookup l k := by
        intro l
        simp [alookup, hk]
      cases hf : f (k₁, v₁) <;> cases hg : g (k₁, v₁) <;>
        simp only [if_true, Bool.false_eq_true, if_false, hskip] <;> exact ih

/-- Lookup semantics of Python's `{**a, **b}`: `b` wins. -/
theorem alookup_dictUpdate {α : Type} (a b : List (Str × α)) (k : Str) :
    alookup (dictUpdate a b) k = orO (alookup b k) (alookup a k) := by
  induction a with
  | nil =>
    unfold dictUpdate
    simp only [List.map_nil, List.nil_append]
    have : b.filter (fun p => (alookup ([] : List (Str × α)) p.1).isNone) = b := by
      apply List.filter_eq_self.mpr
      intro p _
      simp [alookup]
    rw [this]
    cases h : alookup b k <;> simp [orO, alookup, h]
  | cons p a' ih =>
    obtain ⟨k₀, v₀⟩ := p
    by_cases hk : k₀ = k
    · subst hk
      unfold dictUpdate
      simp only [List.map_cons, List.cons_append, alookup, if_pos rfl]
      cases h : alookup b k₀ <;> simp [orO, h]
    · unfold dictUpdate
      simp only [List.map_cons, List.cons_append]
      have step : alookup ((k₀, (alookup b k₀).getD v₀) ::
          (a'.map (fun p => (p.1, (alookup b p.1).getD p.2)) ++
            b.filter (fun p => (alookup ((k₀, v₀) :: a') p.1).isNone))) k
          = alookup (a'.map (fun p => (p.1, (alookup b p.1).getD p.2)) ++
            b.filter (fun p => (alookup ((k₀, v₀) :: a') p.1).isNone)) k := by
        simp [alookup, hk]
      rw [step, alookup_append]
      have hfilt : alookup (b.filter (fun p => (alookup ((k₀, v₀) :: a') p.1).isNone)) k
          = alookup (b.filter (fun p => (alookup a' p.1).isNone)) k := by
        apply alookup_filter_keyinv
        intro v
        simp [alookup, hk]
      rw [hfilt]
      unfold dictUpdate at ih
      rw [alookup_append] at ih
      rw [ih]
      simp [alookup, hk]

/-! ## Metadata values -/

/-- Python metadata values occurring in the pipeline: strings and
non-negative integers. -/
inductive Value where
  | vStr : Str → Value
  | vNat : ℕ → Value
  deriving DecidableEq, Repr

/-- A Python metadata dict. -/
abbrev MetaDict := List (Str × Value)

/-! ## Vector store — `rag/retrieval/vector_store.py` -/

/-- The raw outcome of `self.collection.query(...)` (ChromaDB is an
external collaborator): per-query lists of documents, metadatas, cosine
distances and ids.  `Except Unit` models the `try/except` around the
query. -/
structure ChromaQueryResult where
  documents : List (List Str)
  metadatas : List (List MetaDict)
  distances : List (List ℚ)
  ids : List (List Str)
  deriving DecidableEq, Repr

/-- The dictionary returned by `VectorStore.search`: the four keys it
constructs (`documents`, `metadatas`, `distances`, `ids`).  The source
never puts an `embeddings` key into this dictionary — even when the caller
asked for embeddings via `include` — so the `embeddings` field of this
model is always `none`. -/
structure SearchResult where
  documents : List Str
  metadatas : List MetaDict
  distances : List ℚ
  ids : List Str
  embeddings : Option (List (List ℚ))
  deriving DecidableEq, Repr

/-- `VectorStore.search`: unwraps the per-query lists (index `[0]`) of the
collection's answer; any exception is converted to the empty result. -/
def vectorStoreSearch (queryOutcome : Except Unit ChromaQueryResult) : SearchResult :=
  match queryOutcome with
  | .error _ => ⟨[], [], [], [], none⟩
  | .ok r => ⟨r.documents.headD [], r.metadatas.headD [], r.distances.headD [],
      r.ids.headD [], none⟩

/-- Fuel-driven batching `documents[i:i+batch_size]` for
`i = 0, batch_size, 2*batch_size, ...` (fuel = list length, sufficient
whenever `batchSize > 0`). -/
def batchesAux {α : Type} : ℕ → List α → ℕ → List (List α)
  | 0, _, _ => []
  | _, [], _ => []
  | fuel + 1, l@(_ :: _), bs => l.take bs :: batchesAux fuel (l.drop bs) bs

/-- The batches of `add_documents`' loop `range(0, len(documents), batch_size)`. -/
def batches {α : Type} (bs : ℕ) (l : List α) : List (List α) :=
  batchesAux l.length l bs

theorem batchesAux_fuel_inv {α : Type} :
    ∀ (fuel₁ fuel₂ : ℕ) (l : List α) (bs : ℕ), 0 < bs →
      l.length ≤ fuel₁ → l.length ≤ fuel₂ →
      batchesAux fuel₁ l bs = batchesAux fuel₂ l bs := by
  intro fuel₁
  induction fuel₁ with
  | zero =>
    intro fuel₂ l bs _ h1 _
    have : l = [] := List.eq_nil_of_length_eq_zero (Nat.le_zero.mp h1)
    subst this
    cases fuel₂ <;> rfl
  | succ fuel ih =>
    intro fuel₂ l bs hbs h1 h2
    cases l with
    | nil => cases fuel₂ <;> rfl
    | cons x xs =>
      cases fuel₂ with
      | zero => simp at h2
      | succ fuel₂' =>
        show (x :: xs).take bs :: batchesAux fuel ((x :: xs).drop bs) bs
            = (x :: xs).take bs :: batchesAux fuel₂' ((x :: xs).drop bs) bs
        have hd : ((x :: xs).drop bs).length ≤ fuel := by
          rw [List.length_drop, List.length_cons]
          simp only [List.length_cons] at h1
          omega
        have hd2 : ((x :: xs).drop bs).length ≤ fuel₂' := by
          rw [List.length_drop, List.length_cons]
          simp only [List.length_cons] at h2
          omega
        rw [ih fuel₂' ((x :: xs).drop bs) bs hbs hd hd2]

theorem batches_nil {α : Type} (bs : ℕ) : batches bs ([] : List α) = [] := rfl

theorem batches_cons {α : Type} (bs : ℕ) (hbs : 0 < bs) (l : List α) (hl : l ≠ []) :
    batches bs l = l.take bs :: batches bs (l.drop bs) := by
  cases l with
  | nil => exact absurd rfl hl
  | cons x xs =>
    show (x :: xs).take bs :: batchesAux xs.length ((x :: xs).drop bs) bs
        = (x :: xs).take bs :: batchesAux ((x :: xs).drop bs).length ((x :: xs).drop bs) bs
    rw [batchesAux_fuel_inv xs.length ((x :: xs).drop bs).length ((x :: xs).drop bs) bs hbs
      (by rw [List.length_drop, List.length_cons]; omega) (le_refl _)]

/-- All batches concatenate back to the document list. -/
theorem batches_flatten {α : Type} (bs : ℕ) (hbs : 0 < bs) :
    ∀ (l : List α), (batches bs l).flatten = l := by
  have H : ∀ (n : ℕ) (l : List α), l.length = n → (batches bs l).flatten = l := by
    intro n
    induction n using Nat.strong_induction_on with
    | _ n ih =>
      intro l hn
      cases l with
      | nil => simp [batches_nil]
      | cons x xs =>
        rw [batches_cons bs hbs (x :: xs) (by simp)]
        have hlt : ((x :: xs).drop bs).length < n := by
          rw [List.length_drop, List.length_cons]
          subst hn
          simp only [List.length_cons]
          omega
        rw [List.flatten_cons, ih _ hlt _ rfl, List.take_append_drop]
  intro l
  exact H l.length l rfl

/-- The batch loop of `add_documents`: each batch's ids are pre-generated
(`uuid.uuid4()` is modelled by consecutive integers); `collection.add` may
raise (`raises`), in which case the batch is skipped (`continue`) and its
ids are never returned; otherwise the batch is persisted and its ids
extended onto the result. -/
def addDocumentsGo {α : Type} (raises : List α → Bool) :
    List (List α) → ℕ → List α → List ℕ × List α
  | [], _, store => ([], store)
  | b :: bl, nextId, store =>
    if raises b then addDocumentsGo raises bl (nextId + b.length) store
    else
      let rest := addDocumentsGo raises bl (nextId + b.length) (store ++ b)
      (List.range' nextId b.length ++ rest.1, rest.2)

/-- `VectorStore.add_documents`: empty input returns `[]`; otherwise the
documents are processed in batches of `batchSize`.  Returns the assigned
ids and the new persisted collection contents (`count` = length of the
latter). -/
def addDocuments {α : Type} (raises : List α → Bool) (documents : List α)
    (batchSize : ℕ) (nextId : ℕ) (store : List α) : List ℕ × List α :=
  if documents.isEmpty then ([], store)
  else addDocumentsGo raises (batches batchSize documents) nextId store

/-- `VectorStore.count_documents` (`collection.count()`). -/
def countDocuments {α : Type} (store : List α) : ℕ := store.length

theorem addDocumentsGo_spec {α : Type} (raises : List α → Bool) :
    ∀ (bl : List (List α)) (nextId : ℕ) (store : List α),
      (addDocumentsGo raises bl nextId store).2
          = store ++ (bl.filter (fun b => !raises b)).flatten ∧
      (addDocumentsGo raises bl nextId store).1.length
          = ((bl.filter (fun b => !raises b)).map List.length).sum := by
  intro bl
  induction bl with
  | nil => intro nextId store; simp [addDocumentsGo]
  | cons b bl ih =>
    intro nextId store
    by_cases hb : raises b
    · have h1 : addDocumentsGo raises (b :: bl) nextId store
          = addDocumentsGo raises bl (nextId + b.length) store := by
        simp [addDocumentsGo, hb]
      rw [h1, List.filter_cons]
      simp only [hb, Bool.not_true, Bool.false_eq_true, if_false]
      exact ih (nextId + b.length) store
    · have h1 : addDocumentsGo raises (b :: bl) nextId store
          = (List.range' nextId b.length ++
              (addDocumentsGo raises bl (nextId + b.length) (store ++ b)).1,
             (addDocumentsGo raises bl (nextId + b.length) (store ++ b)).2) := by
        simp [addDocumentsGo, hb]
      obtain ⟨ih1, ih2⟩ := ih (nextId + b.length) (store ++ b)
      rw [h1, List.filter_cons]
      simp only [hb, Bool.not_false, if_true]
      constructor
      · simp only [ih1, List.flatten_cons, List.append_assoc]
      · simp [ih2]

/-! ## Retriever — `rag/retrieval/retriever.py` -/

/-- An element of the list returned by `Retriever._format_results`. -/
structure FormattedResult where
  text : Str
  metadata : MetaDict
  score : ℚ
  embedding : Option (List ℚ)
  deriving DecidableEq, Repr

/-- An element of the list returned by `Retriever._rerank_with_cross_encoder`. -/
structure ScoredResult where
  text : Str
  metadata : MetaDict
  vector_score : ℚ
  cross_encoder_score : ℚ
  combined_score : ℚ
  embedding : List ℚ
  deriving DecidableEq, Repr

/-- Python `zip` over four lists (truncates to the shortest). -/
def zip4 {α β γ δ : Type} : List α → List β → List γ → List δ → List (α × β × γ × δ)
  | a :: as, b :: bs, c :: cs, d :: ds => (a, b, c, d) :: zip4 as bs cs ds
  | _, _, _, _ => []

theorem zip4_dist_mem {α β γ δ : Type} :
    ∀ (as : List α) (bs : List β) (cs : List γ) (ds : List δ) (x : α × β × γ × δ),
      x ∈ zip4 as bs cs ds → x.2.2.1 ∈ cs := by
  intro as
  induction as with
  | nil => intro bs cs ds x hx; cases bs <;> cases cs <;> cases ds <;> simp [zip4] at hx
  | cons a as ih =>
    intro bs cs ds x hx
    cases bs with
    | nil => simp [zip4] at hx
    | cons b bs =>
      cases cs with
      | nil => simp [zip4] at hx
      | cons c cs =>
        cases ds with
        | nil => simp [zip4] at hx
        | cons d ds =>
          simp only [zip4, List.mem_cons] at hx
          rcases hx with rfl | hx
          · simp
          · exact List.mem_cons_of_mem c (ih bs cs ds x hx)

/-- `Retriever._format_results`: zip documents, metadatas, distances and
embeddings (defaulting to a list of `None`s when the `embeddings` key is
missing), stop after `n_results` entries, and convert each cosine distance
to a similarity `1 - d/2`. -/
def formatResults (results : SearchResult) (nResults : ℕ) : List FormattedResult :=
  let embs : List (Option (List ℚ)) :=
    match results.embeddings with
    | some es => es.map some
    | none => List.replicate results.documents.length none
  ((zip4 results.documents results.metadatas results.distances embs).take nResults).map
    (fun x => ⟨x.1, x.2.1, 1 - x.2.2.1 / 2, x.2.2.2⟩)

/-- `Retriever._rerank_with_cross_encoder`: cross-encoder scores for each
`(query, doc)` pair, fused as `vector_score * 0.4 + rerank_score * 0.6`,
stably sorted descending by `combined_score`, truncated to `n_results`.
The source evaluates `results['embeddings']`; the dictionary built by
`VectorStore.search` has no such key, which is modelled by the `none`
branch raising `KeyError`.  (`scores.getD i 0` is always in range: the
scores list is as long as the documents list, which bounds the zip.) -/
def rerankWithCrossEncoder (cross : Str → Str → ℚ) (query : Str)
    (results : SearchResult) (nResults : ℕ) : Except Str (List ScoredResult) :=
  if results.documents.isEmpty then .ok []
  else
    match results.embeddings with
    | none => .error "KeyError: 'embeddings'".data
    | some embs =>
      let scores := results.documents.map (cross query)
      let scored :=
        ((zip4 results.documents results.metadatas results.distances embs).enum).map
          (fun p =>
            let s := scores.getD p.1 0
            let v : ℚ := 1 - p.2.2.2.1 / 2
            ScoredResult.mk p.2.1 p.2.2.1 v s (v * (4 / 10) + s * (6 / 10)) p.2.2.2.2)
      .ok ((scored.mergeSort
        (fun a b => decide (b.combined_score ≤ a.combined_score))).take nResults)

/-- The two result shapes `Retriever.retrieve` can return (the reranked and
the plain path build dictionaries with different keys). -/
inductive RetrieveOut where
  | reranked : List ScoredResult → RetrieveOut
  | plain : List FormattedResult → RetrieveOut
  deriving DecidableEq, Repr

/-- `Retriever.retrieve`: query expansion is the identity in the source;
first-stage retrieval goes through `VectorStore.search`; empty first-stage
results short-circuit to `[]`; reranking runs only when enabled and a
cross-encoder instance is present. -/
def retrieve (cross : Option (Str → Str → ℚ)) (useReranking : Bool)
    (queryOutcome : Except Unit ChromaQueryResult) (query : Str) (nResults : ℕ) :
    Except Str RetrieveOut :=
  let results := vectorStoreSearch queryOutcome
  if results.documents.isEmpty then .ok (.plain [])
  else
    match useReranking, cross with
    | true, some ce => (rerankWithCrossEncoder ce query results nResults).map .reranked
    | _, _ => .ok (.plain (formatResults results nResults))

/-! ## Decimal rendering — Python `str(int)` for non-negative integers -/

/-- The ASCII digit character for `n < 10`. -/
def digitChar (n : ℕ) : Char := Char.ofNat (48 + n)

/-- Decimal digits of a natural number, fuel-driven (any fuel `> n`
suffices). -/
def natStrAux : ℕ → ℕ → Str
  | 0, _ => []
  | fuel + 1, n =>
    if n < 10 then [digitChar n] else natStrAux fuel (n / 10) ++ [digitChar (n % 10)]

/-- `str(n)` for a natural number `n`. -/
def natStr (n : ℕ) : Str := natStrAux (n + 1) n

/-- `c` is an ASCII decimal digit. -/
def isDigitChar (c : Char) : Bool := decide (48 ≤ c.toNat) && decide (c.toNat ≤ 57)

theorem digitChar_toNat (m : ℕ) (h : m < 10) : (digitChar m).toNat = 48 + m := by
  interval_cases m <;> decide

theorem digitChar_isDigit (m : ℕ) (h : m < 10) : isDigitChar (digitChar m) = true := by
  interval_cases m <;> decide

theorem natStrAux_fuel_inv :
    ∀ (fuel₁ fuel₂ n : ℕ), n < fuel₁ → n < fuel₂ →
      natStrAux fuel₁ n = natStrAux fuel₂ n := by
  intro fuel₁
  induction fuel₁ with
  | zero => intro fuel₂ n h1; omega
  | succ f ih =>
    intro fuel₂ n h1 h2
    cases fuel₂ with
    | zero => omega
    | succ f₂ =>
      show (if n < 10 then [digitChar n] else natStrAux f (n / 10) ++ [digitChar (n % 10)])
          = (if n < 10 then [digitChar n] else natStrAux f₂ (n / 10) ++ [digitChar (n % 10)])
      by_cases hn : n < 10
      · rw [if_pos hn, if_pos hn]
      · rw [if_neg hn, if_neg hn, ih f₂ (n / 10) (by omega) (by omega)]

/-- Evaluate a digit string back to a number. -/
def parseNatAcc (s : Str) : ℕ := s.foldl (fun a c => 10 * a + (c.toNat - 48)) 0

theorem parseNatAcc_append_digit (s : Str) (d : Char) :
    parseNatAcc (s ++ [d]) = 10 * parseNatAcc s + (d.toNat - 48) := by
  unfold parseNatAcc
  rw [List.foldl_append]
  rfl

theorem parseNatAcc_natStrAux :
    ∀ (fuel n : ℕ), n < fuel → parseNatAcc (natStrAux fuel n) = n := by
  intro fuel
  induction fuel with
  | zero => intro n h; omega
  | succ f ih =>
    intro n h
    show parseNatAcc (if n < 10 then [digitChar n]
        else natStrAux f (n / 10) ++ [digitChar (n % 10)]) = n
    by_cases hn : n < 10
    · rw [if_pos hn]
      show 10 * 0 + ((digitChar n).toNat - 48) = n
      rw [digitChar_toNat n hn]
      omega
    · rw [if_neg hn, parseNatAcc_append_digit, ih (n / 10) (by omega),
        digitChar_toNat (n % 10) (by omega)]
      omega

theorem natStr_injective (n m : ℕ) (h : natStr n = natStr m) : n = m := by
  have hn := parseNatAcc_natStrAux (n + 1) n (by omega)
  have hm := parseNatAcc_natStrAux (m + 1) m (by omega)
  unfold natStr at h
  rw [h] at hn
  rw [hm] at hn
  omega

theorem natStrAux_digits :
    ∀ (fuel n : ℕ), n < fuel → ∀ c ∈ natStrAux fuel n, isDigitChar c = true := by
  intro fuel
  induction fuel with
  | zero => intro n h; omega
  | succ f ih =>
    intro n h c hc
    rw [show natStrAux (f + 1) n = (if n < 10 then [digitChar n]
        else natStrAux f (n / 10) ++ [digitChar (n % 10)]) from rfl] at hc
    by_cases hn : n < 10
    · rw [if_pos hn] at hc
      simp only [List.mem_singleton] at hc
      subst hc
      exact digitChar_isDigit n hn
    · rw [if_neg hn] at hc
      rcases List.mem_append.mp hc with hc | hc
      · exact ih (n / 10) (by omega) c hc
      · simp only [List.mem_singleton] at hc
        subst hc
        exact digitChar_isDigit (n % 10) (by omega)

theorem natStr_digits (n : ℕ) : ∀ c ∈ natStr n, isDigitChar c = true :=
  natStrAux_digits (n + 1) n (by omega)

theorem natStr_ne_nil (n : ℕ) : natStr n ≠ [] := by
  unfold natStr
  cases fuel : n + 1 with
  | zero => omega
  | succ f =>
    show (if n < 10 then [digitChar n] else natStrAux f (n / 10) ++ [digitChar (n % 10)]) ≠ []
    by_cases hn : n < 10
    · rw [if_pos hn]; simp
    · rw [if_neg hn]; simp

/-- Maximal-munch cancellation: a digit run followed by a non-digit
boundary determines itself. -/
theorem digits_munch :
    ∀ (a b r₁ r₂ : Str),
      (∀ c ∈ a, isDigitChar c = true) → (∀ c ∈ b, isDigitChar c = true) →
      (∀ c, r₁.head? = some c → isDigitChar c = false) →
      (∀ c, r₂.head? = some c → isDigitChar c = false) →
      a ++ r₁ = b ++ r₂ → a = b ∧ r₁ = r₂ := by
  intro a
  induction a with
  | nil =>
    intro b r₁ r₂ _ hb hr₁ _ h
    cases b with
    | nil => exact ⟨rfl, h⟩
    | cons d b' =>
      rw [List.nil_append] at h
      subst h
      have h1 := hr₁ d rfl
      have h2 := hb d (by simp)
      rw [h1] at h2
      cases h2
  | cons c a' ih =>
    intro b r₁ r₂ ha hb hr₁ hr₂ h
    cases b with
    | nil =>
      rw [List.nil_append] at h
      have h2 := hr₂ c (by rw [← h]; rfl)
      have h3 := ha c (by simp)
      rw [h2] at h3
      cases h3
    | cons d b' =>
      simp only [List.cons_append, List.cons.injEq] at h
      obtain ⟨rfl, h⟩ := h
      obtain ⟨h1, h2⟩ := ih b' r₁ r₂ (fun x hx => ha x (List.mem_cons_of_mem c hx))
        (fun x hx => hb x (List.mem_cons_of_mem c hx)) hr₁ hr₂ h
      exact ⟨by rw [h1], h2⟩

/-! ## `json.dumps` for metadata dicts -/

/-- JSON string escaping for one character (quote and backslash; control
and non-ASCII escaping, which `json.dumps` also performs, does not occur in
the metadata considered here and would preserve injectivity anyway). -/
def escChar (c : Char) : Str := if c = '"' || c = '\\' then ['\\', c] else [c]

/-- JSON string escaping. -/
def escStr (s : Str) : Str := s.flatMap escChar

/-- Serialize one metadata value (`json.dumps` renders strings quoted and
integers bare). -/
def serValue : Value → Str
  | .vStr s => '"' :: (escStr s ++ ['"'])
  | .vNat n => natStr n

/-- Serialize one `"key": value` entry (default `': '` separator). -/
def serEntry (p : Str × Value) : Str :=
  '"' :: (escStr p.1 ++ '"' :: ':' :: ' ' :: serValue p.2)

/-- Serialize the entries with the default `', '` separator, closing with
`'}'`. -/
def serEntries : MetaDict → Str
  | [] => ['}']
  | [e] => serEntry e ++ ['}']
  | e :: e' :: l => serEntry e ++ ',' :: ' ' :: serEntries (e' :: l)

/-- `json.dumps(m, sort_keys=True)`.  A Python dict is represented here by
its key-sorted binding list (`sort_keys=True` iterates the bindings in
sorted key order), so serialization is direct. -/
def jsonDumps (m : MetaDict) : Str := '{' :: serEntries m

example : jsonDumps [] = ['\x7b', '\x7d'] := by decide

example : jsonDumps [("a".data, Value.vNat 12)]
    = ['\x7b', '"', 'a', '"', ':', ' ', '1', '2', '\x7d'] := by decide

/-- Cancellation for escaped strings terminated by an unescaped quote. -/
theorem escStr_quote_cancel :
    ∀ (k₁ k₂ a₁ a₂ : Str),
      escStr k₁ ++ '"' :: a₁ = escStr k₂ ++ '"' :: a₂ → k₁ = k₂ ∧ a₁ = a₂ := by
  intro k₁
  induction k₁ with
  | nil =>
    intro k₂ a₁ a₂ h
    cases k₂ with
    | nil =>
      simp only [escStr, List.flatMap_nil, List.nil_append, List.cons.injEq] at h
      exact ⟨rfl, h.2⟩
    | cons c k₂' =>
      exfalso
      simp only [escStr, List.flatMap_nil, List.nil_append, List.flatMap_cons,
        List.append_assoc] at h
      unfold escChar at h
      by_cases hc : c = '"' || c = '\\'
      · rw [if_pos hc] at h
        simp at h
      · rw [if_neg hc] at h
        simp only [List.singleton_append, List.cons.injEq] at h
        simp only [Bool.or_eq_true, decide_eq_true_eq, not_or] at hc
        exact hc.1 h.1.symm
  | cons c k₁' ih =>
    intro k₂ a₁ a₂ h
    cases k₂ with
    | nil =>
      exfalso
      simp only [escStr, List.flatMap_nil, List.nil_append, List.flatMap_cons,
        List.append_assoc] at h
      unfold escChar at h
      by_cases hc : c = '"' || c = '\\'
      · rw [if_pos hc] at h
        simp at h
      · rw [if_neg hc] at h
        simp only [List.singleton_append, List.cons.injEq] at h
        simp only [Bool.or_eq_true, decide_eq_true_eq, not_or] at hc
        exact hc.1 h.1
    | cons d k₂' =>
      simp only [escStr, List.flatMap_cons, List.append_assoc] at h
      unfold escChar at h
      by_cases hc : c = '"' || c = '\\' <;> by_cases hd : d = '"' || d = '\\'
      · rw [if_pos hc, if_pos hd] at h
        simp only [List.cons_append, List.nil_append, List.cons.injEq] at h
        obtain ⟨-, rfl, h⟩ := h
        obtain ⟨h1, h2⟩ := ih k₂' a₁ a₂ h
        exact ⟨by rw [h1], h2⟩
      · exfalso
        rw [if_pos hc, if_neg hd] at h
        simp only [List.cons_append, List.nil_append, List.cons.injEq,
          List.singleton_append] at h
        simp only [Bool.or_eq_true, decide_eq_true_eq, not_or] at hd
        exact hd.2 h.1.symm
      · exfalso
        rw [if_neg hc, if_pos hd] at h
        simp only [List.cons_append, List.nil_append, List.cons.injEq,
          List.singleton_append] at h
        simp only [Bool.or_eq_true, decide_eq_true_eq, not_or] at hc
        exact hc.2 h.1
      · rw [if_neg hc, if_neg hd] at h
        simp only [List.singleton_append, List.cons.injEq] at h
        obtain ⟨rfl, h⟩ := h
        obtain ⟨h1, h2⟩ := ih k₂' a₁ a₂ h
        exact ⟨by rw [h1], h2⟩

/-- Boundary characters after a serialized value: not a digit and not a
quote. -/
def IsValBoundary (t : Str) : Prop :=
  ∀ c, t.head? = some c → isDigitChar c = false ∧ c ≠ '"'

theorem natStr_head_digit (n : ℕ) :
    ∀ c, (natStr n).head? = some c → isDigitChar c = true := by
  intro c hc
  exact natStr_digits n c (List.mem_of_mem_head? (by rw [hc]; rfl))

theorem serValue_cancel (v₁ v₂ : Value) (t₁ t₂ : Str)
    (hb₁ : IsValBoundary t₁) (hb₂ : IsValBoundary t₂)
    (h : serValue v₁ ++ t₁ = serValue v₂ ++ t₂) : v₁ = v₂ ∧ t₁ = t₂ := by
  cases v₁ with
  | vStr s₁ =>
    cases v₂ with
    | vStr s₂ =>
      simp only [serValue, List.cons_append, List.cons.injEq, List.append_assoc] at h
      obtain ⟨h1, h2⟩ := escStr_quote_cancel s₁ s₂ t₁ t₂ (by simpa using h.2)
      exact ⟨by rw [h1], h2⟩
    | vNat n₂ =>
      exfalso
      simp only [serValue, List.cons_append] at h
      cases hn : natStr n₂ with
      | nil => exact absurd hn (natStr_ne_nil n₂)
      | cons d rest =>
        rw [hn, List.cons_append, List.cons.injEq] at h
        have hd : isDigitChar d = true := natStr_digits n₂ d (by rw [hn]; simp)
        rw [← h.1] at hd
        cases hd
  | vNat n₁ =>
    cases v₂ with
    | vStr s₂ =>
      exfalso
      simp only [serValue, List.cons_append] at h
      cases hn : natStr n₁ with
      | nil => exact absurd hn (natStr_ne_nil n₁)
      | cons d rest =>
        rw [hn, List.cons_append, List.cons.injEq] at h
        have hd : isDigitChar d = true := natStr_digits n₁ d (by rw [hn]; simp)
        rw [h.1] at hd
        cases hd
    | vNat n₂ =>
      simp only [serValue] at h
      obtain ⟨h1, h2⟩ := digits_munch (natStr n₁) (natStr n₂) t₁ t₂
        (natStr_digits n₁) (natStr_digits n₂)
        (fun c hc => (hb₁ c hc).1) (fun c hc => (hb₂ c hc).1) h
      exact ⟨by rw [natStr_injective n₁ n₂ h1], h2⟩

theorem serEntry_cancel (e₁ e₂ : Str × Value) (t₁ t₂ : Str)
    (hb₁ : IsValBoundary t₁) (hb₂ : IsValBoundary t₂)
    (h : serEntry e₁ ++ t₁ = serEntry e₂ ++ t₂) : e₁ = e₂ ∧ t₁ = t₂ := by
  obtain ⟨k₁, v₁⟩ := e₁
  obtain ⟨k₂, v₂⟩ := e₂
  simp only [serEntry, List.cons_append, List.cons.injEq, List.append_assoc] at h
  have h2 := h.2
  rw [show ('"' :: ':' :: ' ' :: (serValue v₁ ++ t₁)) = '"' :: (':' :: ' ' :: (serValue v₁ ++ t₁)) from rfl] at h2
  obtain ⟨hk, hrest⟩ := escStr_quote_cancel k₁ k₂ _ _ (by simpa using h2)
  simp only [List.cons.injEq] at hrest
  obtain ⟨hv, ht⟩ := serValue_cancel v₁ v₂ t₁ t₂ hb₁ hb₂ hrest.2.2
  exact ⟨by rw [hk, hv], ht⟩

theorem isValBoundary_brace : IsValBoundary ('}' :: t) := by
  intro c hc
  simp only [List.head?_cons, Option.some.injEq] at hc
  subst hc
  exact ⟨by decide, by decide⟩

theorem isValBoundary_comma : IsValBoundary (',' :: t) := by
  intro c hc
  simp only [List.head?_cons, Option.some.injEq] at hc
  subst hc
  exact ⟨by decide, by decide⟩

theorem serEntry_head (e : Str × Value) : ∃ rest, serEntry e = '"' :: rest := by
  obtain ⟨k, v⟩ := e
  exact ⟨_, rfl⟩

/-- Serialization of (sorted) binding lists is injective. -/
theorem serEntries_inj : ∀ l₁ l₂ : MetaDict, serEntries l₁ = serEntries l₂ → l₁ = l₂ := by
  intro l₁
  induction l₁ with
  | nil =>
    intro l₂ h
    cases l₂ with
    | nil => rfl
    | cons e₂ l₂' =>
      exfalso
      obtain ⟨r₂, hr₂⟩ := serEntry_head e₂
      cases l₂' with
      | nil =>
        simp only [serEntries, hr₂, List.cons_append, List.cons.injEq] at h
        exact absurd h.1 (by decide)
      | cons e₂' l₂'' =>
        simp only [serEntries, hr₂, List.cons_append, List.cons.injEq] at h
        exact absurd h.1 (by decide)
  | cons e₁ l₁' ih =>
    intro l₂ h
    cases l₂ with
    | nil =>
      exfalso
      obtain ⟨r₁, hr₁⟩ := serEntry_head e₁
      cases l₁' with
      | nil =>
        simp only [serEntries, hr₁, List.cons_append, List.cons.injEq] at h
        exact absurd h.1 (by decide)
      | cons e₁' l₁'' =>
        simp only [serEntries, hr₁, List.cons_append, List.cons.injEq] at h
        exact absurd h.1 (by decide)
    | cons e₂ l₂' =>
      cases l₁' with
      | nil =>
        cases l₂' with
        | nil =>
          simp only [serEntries] at h
          obtain ⟨he, -⟩ := serEntry_cancel e₁ e₂ ['}'] ['}']
            isValBoundary_brace isValBoundary_brace h
          rw [he]
        | cons e₂' l₂'' =>
          exfalso
          simp only [serEntries] at h
          obtain ⟨-, ht⟩ := serEntry_cancel e₁ e₂ ['}'] (',' :: ' ' :: serEntries (e₂' :: l₂''))
            isValBoundary_brace isValBoundary_comma h
          simp only [List.cons.injEq] at ht
          exact absurd ht.1 (by decide)
      | cons e₁' l₁'' =>
        cases l₂' with
        | nil =>
          exfalso
          simp only [serEntries] at h
          obtain ⟨-, ht⟩ := serEntry_cancel e₁ e₂ (',' :: ' ' :: serEntries (e₁' :: l₁'')) ['}']
            isValBoundary_comma isValBoundary_brace h
          simp only [List.cons.injEq] at ht
          exact absurd ht.1 (by decide)
        | cons e₂' l₂'' =>
          simp only [serEntries] at h
          obtain ⟨he, ht⟩ := serEntry_cancel e₁ e₂
            (',' :: ' ' :: serEntries (e₁' :: l₁'')) (',' :: ' ' :: serEntries (e₂' :: l₂''))
            isValBoundary_comma isValBoundary_comma h
          simp only [List.cons.injEq] at ht
          rw [he, ih (e₂' :: l₂'') ht.2.2]

/-- `json.dumps(·, sort_keys=True)` is injective on (canonically sorted)
dict binding lists. -/
theorem jsonDumps_injective (m₁ m₂ : MetaDict) (h : jsonDumps m₁ = jsonDumps m₂) :
    m₁ = m₂ := by
  unfold jsonDumps at h
  simp only [List.cons.injEq] at h
  exact serEntries_inj m₁ m₂ h.2

/-! ## Cache keys — `RAGService._generate_cache_key` -/

/-- Python `int(x)` for a float/rational: truncation toward zero. -/
def pyTrunc (q : ℚ) : ℤ := q.num.tdiv q.den

/-- Python `str(int)`. -/
def intStr (z : ℤ) : Str := if z < 0 then '-' :: natStr z.natAbs else natStr z.toNat

/-- The `"_".join(key_parts)` string of `_generate_cache_key`:
`file_name`, `str(file_size)`, `str(int(file_mtime))`,
`json.dumps(metadata or {}, sort_keys=True)`. -/
def cacheKeyString (name : Str) (size : ℕ) (mtime : ℚ) (metadata : MetaDict) : Str :=
  name ++ '_' :: (natStr size ++ '_' :: (intStr (pyTrunc mtime) ++ '_' :: jsonDumps metadata))

/-- `RAGService._generate_cache_key`.  The source returns
`hashlib.md5(key_string).hexdigest()`; MD5 is an external primitive, passed
here as the function `hash` (theorems about fingerprint distinctness assume
it is injective, the idealization of a collision-resistant hash). -/
def generateCacheKey (hash : Str → Str) (name : Str) (size : ℕ) (mtime : ℚ)
    (metadata : MetaDict) : Str :=
  hash (cacheKeyString name size mtime metadata)

/-- String lexicographic order on code points (Python `<` on `str`),
used to express that a binding list is in `sort_keys` order. -/
def strLt : Str → Str → Bool
  | [], [] => false
  | [], _ :: _ => true
  | _ :: _, [] => false
  | a :: s, b :: t => if a < b then true else if a = b then strLt s t else false

/-- A canonically sorted dict representation: keys strictly increasing. -/
def SortedDict (m : MetaDict) : Prop :=
  m.Pairwise (fun p q => strLt p.1 q.1 = true)

theorem pyTrunc_nonneg (q : ℚ) (h : 0 ≤ q) : 0 ≤ pyTrunc q :=
  Int.tdiv_nonneg (Rat.num_nonneg.mpr h) (by positivity)

theorem pyTrunc_eq_floor (q : ℚ) (h : 0 ≤ q) : pyTrunc q = ⌊q⌋ := by
  rw [Rat.floor_def]
  unfold pyTrunc
  rw [Int.tdiv_eq_ediv (Rat.num_nonneg.mpr h) (by positivity)]

/-- Truncation separates rationals at least 1 apart. -/
theorem pyTrunc_separates (m m' : ℚ) (hm : 0 ≤ m) (hgap : m + 1 ≤ m') :
    pyTrunc m < pyTrunc m' := by
  have hm' : (0 : ℚ) ≤ m' := le_trans (by linarith) hgap
  rw [pyTrunc_eq_floor m hm, pyTrunc_eq_floor m' hm']
  have h1 : ⌊m + (1 : ℤ)⌋ ≤ ⌊m'⌋ := Int.floor_le_floor (by push_cast; linarith)
  rw [Int.floor_add_int] at h1
  omega

/-- Cancellation of the four `_`-joined key parts (for non-negative
mtimes, whose decimal rendering is digits-only). -/
theorem cacheKeyString_cancel (name : Str) (size₁ size₂ : ℕ) (mtime₁ mtime₂ : ℚ)
    (meta₁ meta₂ : MetaDict) (h₁ : 0 ≤ mtime₁) (h₂ : 0 ≤ mtime₂)
    (h : cacheKeyString name size₁ mtime₁ meta₁ = cacheKeyString name size₂ mtime₂ meta₂) :
    size₁ = size₂ ∧ pyTrunc mtime₁ = pyTrunc mtime₂ ∧ meta₁ = meta₂ := by
  unfold cacheKeyString at h
  have h' := List.append_cancel_left h
  simp only [List.cons.injEq, true_and] at h'
  obtain ⟨hsz, hrest⟩ := digits_munch (natStr size₁) (natStr size₂) _ _
    (natStr_digits size₁) (natStr_digits size₂)
    (by intro c hc; simp only [List.head?_cons, Option.some.injEq] at hc; subst hc; decide)
    (by intro c hc; simp only [List.head?_cons, Option.some.injEq] at hc; subst hc; decide)
    h'
  simp only [List.cons.injEq, true_and] at hrest
  have hi₁ : intStr (pyTrunc mtime₁) = natStr (pyTrunc mtime₁).toNat := by
    unfold intStr
    rw [if_neg (by have := pyTrunc_nonneg mtime₁ h₁; omega)]
  have hi₂ : intStr (pyTrunc mtime₂) = natStr (pyTrunc mtime₂).toNat := by
    unfold intStr
    rw [if_neg (by have := pyTrunc_nonneg mtime₂ h₂; omega)]
  rw [hi₁, hi₂] at hrest
  obtain ⟨hmt, hrest₂⟩ := digits_munch (natStr (pyTrunc mtime₁).toNat)
    (natStr (pyTrunc mtime₂).toNat) _ _
    (natStr_digits _) (natStr_digits _)
    (by intro c hc; simp only [List.head?_cons, Option.some.injEq] at hc; subst hc; decide)
    (by intro c hc; simp only [List.head?_cons, Option.some.injEq] at hc; subst hc; decide)
    hrest
  simp only [List.cons.injEq, true_and] at hrest₂
  refine ⟨natStr_injective _ _ hsz, ?_, jsonDumps_injective _ _ hrest₂⟩
  have := natStr_injective _ _ hmt
  have n₁ := pyTrunc_nonneg mtime₁ h₁
  have n₂ := pyTrunc_nonneg mtime₂ h₂
  omega

/-! ## Document processing — `DocumentProcessor.process_document` -/

/-- `os.stat` data for an existing file plus the externally formatted
timestamp strings (`datetime.fromtimestamp(...).isoformat()`) and absolute
path, all opaque to the pipeline logic. -/
structure FileStat where
  ino : ℕ
  size : ℕ
  ctimeIso : Str
  mtimeIso : Str
  absPath : Str
  deriving DecidableEq, Repr

/-- `Path(p).name`: the final path component. -/
def pyName (path : Str) : Str := (path.reverse.takeWhile (fun c => c ≠ '/')).reverse

/-- `Path(p).suffix` (pathlib): the part from the last dot of the name,
provided that dot is neither the first nor the last character. -/
def pySuffix (name : Str) : Str :=
  let r := name.reverse
  let j := r.findIdx (fun c => c = '.')
  if 0 < j ∧ j < name.length - 1 then (r.take (j + 1)).reverse else []

example : pySuffix "a.txt".data = ".txt".data := by decide
example : pySuffix "archive.tar.gz".data = ".gz".data := by decide
example : pySuffix ".hidden".data = [] := by decide
example : pySuffix "noext".data = [] := by decide

/-- `DocumentProcessor._get_file_metadata`. -/
def fileMeta (path : Str) (st : FileStat) : MetaDict :=
  [("file_id".data, Value.vStr ("file_".data ++ natStr st.ino)),
   ("file_name".data, Value.vStr (pyName path)),
   ("file_extension".data, Value.vStr (pyLower (pySuffix (pyName path)))),
   ("file_size".data, Value.vNat st.size),
   ("created".data, Value.vStr st.ctimeIso),
   ("modified".data, Value.vStr st.mtimeIso),
   ("absolute_path".data, Value.vStr st.absPath)]

/-- The outcomes of the three format extractors for the file at hand
(PyPDF2, ebooklib and plain-text reading with encoding fallback are
external IO). -/
structure Extractors where
  pdf : Except Str Str
  epub : Except Str Str
  text : Except Str Str

/-- `DocumentProcessor._extract_content`: pure dispatch on the lower-cased
extension; unknown extensions raise
`ValueError(f"Unsupported file format: {extension}")`. -/
def extractContent (ex : Extractors) (path : Str) : Except Str Str :=
  let extension := pyLower (pySuffix (pyName path))
  if extension = ".pdf".data then ex.pdf
  else if extension = ".epub".data then ex.epub
  else if extension = ".txt".data ∨ extension = ".md".data ∨ extension = ".markdown".data then
    ex.text
  else .error ("Unsupported file format: ".data ++ extension)

/-- `_chunk_content` including the spaCy call (`sentsE`, which can raise)
and the leading `if not content.strip(): return []` guard; chunk size and
overlap are the source defaults 1000 and 200. -/
def chunkContentE (sentsE : Str → Except Str (List Str)) (content : Str) :
    Except Str (List Chunk) :=
  if pyStrip content = [] then .ok []
  else (sentsE content).map (fun ss => chunkFromSents ss 1000 200)

/-- The `metadata` dict of a raw chunk (`chunk_type` and `word_count`). -/
def chunkMeta (c : Chunk) : MetaDict :=
  [("chunk_type".data, Value.vStr "text".data),
   ("word_count".data, Value.vNat c.wordCount)]

/-- A processed chunk: text, embedding vector and merged metadata. -/
structure ProcChunk where
  text : Str
  embedding : List ℚ
  metadata : MetaDict
  deriving DecidableEq, Repr

/-- The `ProcessingResult` dictionary.  `status` is one of the strings
`success`, `partial`, `failed`; `error` is present exactly on the failure
path.  Wall-clock `processing_time` is rendered as `0` (the clock is an
external effect no claim depends on). -/
structure ProcResult where
  chunks : List ProcChunk
  metadata : MetaDict
  processing_time : ℚ
  status : Str
  error : Option Str
  deriving DecidableEq, Repr

/-- `f"{file_meta['file_id']}"`. -/
def fileIdStr (st : FileStat) : Str := "file_".data ++ natStr st.ino

/-- The merged metadata of the `i`-th processed chunk:
`{**chunk.metadata, 'chunk_id': ..., 'position': i, 'total_chunks': n,
**file_meta, **(metadata or {})}`. -/
def processedChunkMeta (st : FileStat) (path : Str) (metadata : MetaDict)
    (total : ℕ) (i : ℕ) (c : Chunk) : MetaDict :=
  dictUpdate (dictUpdate (dictUpdate (chunkMeta c)
      [("chunk_id".data, Value.vStr (fileIdStr st ++ "_chunk_".data ++ natStr i)),
       ("position".data, Value.vNat i),
       ("total_chunks".data, Value.vNat total)]) (fileMeta path st)) metadata

/-- The per-chunk embedding loop of `process_document`: each chunk is
encoded; an exception for one chunk is caught and logged, skipping only
that chunk. -/
def embedLoop (encode : Str → Except Str (List ℚ)) (st : FileStat) (path : Str)
    (metadata : MetaDict) (chunks : List Chunk) : List ProcChunk :=
  (chunks.enum).filterMap (fun p =>
    match encode p.2.text with
    | .ok emb => some
        { text := p.2.text, embedding := emb,
          metadata := processedChunkMeta st path metadata chunks.length p.1 p.2 }
    | .error _ => none)

/-- The body of `process_document`'s `try` block (everything that can
raise into the broad `except`): extraction, the emptiness check, chunking,
and the per-chunk embedding loop. -/
def processBody (ex : Extractors) (sentsE : Str → Except Str (List Str))
    (encode : Str → Except Str (List ℚ)) (path : Str) (st : FileStat)
    (metadata : MetaDict) : Except Str ProcResult :=
  match extractContent ex path with
  | .error e => .error e
  | .ok content =>
    if content.isEmpty then .error ("Failed to extract content from ".data ++ path)
    else
      match chunkContentE sentsE content with
      | .error e => .error e
      | .ok chunks =>
        if chunks.isEmpty then
          .ok { chunks := [], metadata := dictUpdate metadata (fileMeta path st),
                processing_time := 0, status := "partial".data, error := none }
        else
          let processed := embedLoop encode st path metadata chunks
          .ok { chunks := processed, metadata := dictUpdate metadata (fileMeta path st),
                processing_time := 0,
                status := if processed.isEmpty then "partial".data else "success".data,
                error := none }

/-- `DocumentProcessor.process_document`.  A missing file raises
`FileNotFoundError` (the only `.error` outcome); every exception inside
the `try` block is caught and converted to a `status='failed'` result;
per-chunk embedding failures are caught in the inner loop and merely skip
the chunk. -/
def processDocument (ex : Extractors) (sentsE : Str → Except Str (List Str))
    (encode : Str → Except Str (List ℚ)) (path : Str) (fstat : Option FileStat)
    (metadata : MetaDict) : Except Str ProcResult :=
  match fstat with
  | none => .error ("File not found: ".data ++ path)
  | some st =>
    match processBody ex sentsE encode path st metadata with
    | .ok r => .ok r
    | .error e => .ok
        { chunks := [],
          metadata := dictUpdate metadata [("file_path".data, Value.vStr path)],
          processing_time := 0, status := "failed".data, error := some e }

/-! ## RAG service — `RAGService.process_document` with caching -/

/-- A cached `ProcessingResult` with the vector store ids attached
(`result['document_ids'] = doc_ids`); JSON round-tripping through the
cache file is value-faithful. -/
structure StoredResult where
  result : ProcResult
  document_ids : List ℕ
  deriving DecidableEq, Repr

/-- Mutable state of the service: the cache directory (fingerprint →
stored JSON), the vector store collection, the id source and a counter of
actual pipeline executions (used to express "served from cache"). -/
structure SvcState where
  cache : List (Str × StoredResult)
  store : List ProcChunk
  nextId : ℕ
  pipelineRuns : ℕ
  deriving DecidableEq, Repr

/-- `RAGService.process_document`: raise `FileNotFoundError` for a missing
file; otherwise compute the fingerprint; on a cache hit (no
`force_reprocess`, caching enabled, entry present) return the cached
result unchanged; on a miss run the processor (`processor`, the
document-processor applied to this file), add the chunks to the vector
store in batches of 100, attach the assigned ids, cache when enabled. -/
def svcProcessDocument (hash : Str → Str) (useCache : Bool)
    (processor : MetaDict → ProcResult) (raises : List ProcChunk → Bool)
    (fileExists : Bool) (name : Str) (size : ℕ) (mtime : ℚ)
    (metadata : MetaDict) (force : Bool) (st : SvcState) :
    Except Str (StoredResult × SvcState) :=
  if fileExists = false then .error ("File not found: ".data ++ name)
  else
    let key := generateCacheKey hash name size mtime metadata
    match (if force = false ∧ useCache = true then alookup st.cache key else none) with
    | some cached => .ok (cached, st)
    | none =>
      let r := processor metadata
      let idsStore := addDocuments raises r.chunks 100 st.nextId st.store
      let rr : StoredResult := ⟨r, idsStore.1⟩
      let cache' := if useCache then dictUpdate st.cache [(key, rr)] else st.cache
      .ok (rr, { cache := cache', store := idsStore.2,
                 nextId := st.nextId + r.chunks.length,
                 pipelineRuns := st.pipelineRuns + 1 })

/-! ## Claim theorems -/

/-- **C10**: for every input text (via any sentence segmentation) and
parameters, every chunk produced by `_chunk_content` has `word_count`
metadata exactly equal to the number of whitespace-separated words of its
`text` field: the incrementally maintained counter never drifts. -/
theorem claim10_word_count (splitter : Str → List Str) (content : Str)
    (chunkSize overlap : ℕ) (c : Chunk)
    (hc : c ∈ chunkContent splitter content chunkSize overlap) :
    c.wordCount = (pySplit c.text).length := by
  unfold chunkContent at hc
  by_cases hs : pyStrip content = []
  · rw [if_pos hs] at hc
    cases hc
  · rw [if_neg hs] at hc
    exact chunkFromSents_wordCount (splitter content) chunkSize overlap c hc

theorem claim10_word_count_witness :
    (Chunk.mk "a b c".data 3) ∈ chunkContent (fun s => [s]) "a b c".data 5 2 ∧
    (Chunk.mk "a b c".data 3).wordCount
      = (pySplit (Chunk.mk "a b c".data 3).text).length :=
  ⟨by decide, claim10_word_count (fun s => [s]) "a b c".data 5 2 _ (by decide)⟩

/-- **C3 (counterexample)**: chunking the sentences `"a b c"` and
`"d e f"` with `target_size = 5` and `overlap_size = 2` closes the first
chunk as `"a b c"`.  Under the claim the next chunk would be seeded with
exactly the last `2` words of the closed chunk and so read
`"b c d e f"`; the code seeds it with the words of the last `2` *buffer
elements* (here the single sentence `"a b c"`, i.e. 3 words), producing
`"a b c d e f"`. -/
theorem claim3_counterexample :
    (chunkFromSents ["a b c".data, "d e f".data] 5 2).map Chunk.text
      = ["a b c".data, "a b c d e f".data] ∧
    "a b c d e f".data ≠ "b c d e f".data := by
  constructor
  · decide
  · decide

/-- **C3 (amended)**: when the chunker closes a chunk, the next chunk is
seeded not with exactly the last `overlap_size` words, but with all words
of the last `overlap_size` *elements* of the buffer (sentences or carried
words).  Consequently every chunk after the first starts with a suffix of
the previous chunk's word sequence, of length at least
`min overlap_size (previous chunk's word count)` — possibly more than
`overlap_size` words (as the counterexample shows) — provided each
sentence contains at least one word. -/
theorem claim3_overlap_seeding (splitter : Str → List Str) (content : Str)
    (chunkSize overlap : ℕ)
    (hwords : ∀ s ∈ splitter content, pySplit s ≠ []) :
    List.Chain' (OverlapRel overlap) (chunkContent splitter content chunkSize overlap) := by
  unfold chunkContent
  by_cases hs : pyStrip content = []
  · rw [if_pos hs]
    exact List.chain'_nil
  · rw [if_neg hs]
    exact chunkFromSents_overlap_chain (splitter content) chunkSize overlap hwords

theorem claim3_overlap_seeding_witness :
    List.Chain' (OverlapRel 2)
      (chunkContent (fun _ => ["a b c".data, "d e f".data]) "a b c. d e f".data 5 2) :=
  claim3_overlap_seeding (fun _ => ["a b c".data, "d e f".data]) "a b c. d e f".data 5 2
    (by decide)

/-- **C5 (counterexample)**: chunking
`"Dr. Smith went home. He was tired. Then he slept."` with
`target_size = 1000` produces one chunk whose `word_count` is `10`, not
`9` — the text has ten whitespace-separated words, so `word_count = 9` is
unreachable under the code's own counting — and the repository's sentence
splitter does break after the token `"Dr."` (first sentence is exactly
`"Dr."`). -/
theorem claim5_counterexample :
    (chunkContent splitIntoSentences
        "Dr. Smith went home. He was tired. Then he slept.".data 1000 200).map
      Chunk.wordCount = [10] ∧
    (10 : ℕ) ≠ 9 ∧
    (splitIntoSentences
        "Dr. Smith went home. He was tired. Then he slept.".data).head? = some "Dr.".data := by
  refine ⟨by decide, by decide, by decide⟩

/-- **C5 (amended)**: chunking
`"Dr. Smith went home. He was tired. Then he slept."` with
`target_size = 1000` (the repository's own sentence splitter
`TextUtils.split_into_sentences` standing in for the external spaCy model,
as the spec's §4.2 sentence-boundary policy describes it) yields exactly
one chunk containing all three sentences, with `word_count = 10`; the
sentence list **does** contain a break after the token `"Dr."`: the
abbreviation test compares `word.lower()` (`"dr."`, with its period)
against the period-free entry `'dr'` and can never fire for any token that
triggered the punctuation check — dead code contradicting the comment that
such abbreviations "shouldn't end sentences". -/
theorem claim5_dr_smith :
    splitIntoSentences "Dr. Smith went home. He was tired. Then he slept.".data
      = ["Dr.".data, "Smith went home. He was tired. Then he slept.".data] ∧
    chunkContent splitIntoSentences
        "Dr. Smith went home. He was tired. Then he slept.".data 1000 200
      = [Chunk.mk "Dr. Smith went home. He was tired. Then he slept.".data 10] := by
  constructor
  · decide
  · decide

/-- **C1 (counterexample)**: ten documents in one `add` batch (default
`batch_size = 100`); the embedding of document `3` fails, so
`collection.add` raises for the whole batch.  `add_documents` skips the
entire batch: it returns `0` ids — not `9` — and `count_documents()`
increases by `0` — not `9`. -/
theorem claim1_counterexample :
    (addDocuments (fun b => b.contains 3) [0, 1, 2, 3, 4, 5, 6, 7, 8, 9] 100 0
        ([] : List ℕ)).1.length = 0 ∧
    countDocuments (addDocuments (fun b => b.contains 3) [0, 1, 2, 3, 4, 5, 6, 7, 8, 9] 100 0
        ([] : List ℕ)).2 = countDocuments ([] : List ℕ) + 0 ∧
    (0 : ℕ) ≠ 9 := by
  refine ⟨by decide, by decide, by decide⟩

theorem sum_map_filter_split {α : Type} (f : α → ℕ) (q : α → Bool) (l : List α) :
    ((l.filter q).map f).sum + ((l.filter (fun x => !q x)).map f).sum = (l.map f).sum := by
  induction l with
  | nil => simp
  | cons x l ih =>
    rw [List.filter_cons, List.filter_cons]
    cases hq : q x
    · simp only [Bool.false_eq_true, if_false, Bool.not_false, if_true, List.map_cons,
        List.sum_cons, List.map_cons, List.sum_cons]
      omega
    · simp only [if_true, Bool.not_true, Bool.false_eq_true, if_false, List.map_cons,
        List.sum_cons]
      omega

/-- **C1 (amended)**: a failure affecting one document in a batch removes
that document's *entire batch* from the returned id list (not just the one
document): `add_documents` returns exactly the ids of the non-failing
batches, all non-failing batches — earlier and later ones — remain
persisted in order, and `count_documents()` increases by exactly the
number of returned ids. -/
theorem claim1_batch_accounting {α : Type} (raises : List α → Bool) (documents : List α)
    (batchSize nextId : ℕ) (store : List α) (hbs : 0 < batchSize) :
    (addDocuments raises documents batchSize nextId store).2
        = store ++ ((batches batchSize documents).filter (fun b => !raises b)).flatten ∧
    (addDocuments raises documents batchSize nextId store).1.length
        + (((batches batchSize documents).filter (fun b => raises b)).map List.length).sum
        = documents.length ∧
    countDocuments (addDocuments raises documents batchSize nextId store).2
        = countDocuments store + (addDocuments raises documents batchSize nextId store).1.length := by
  unfold addDocuments
  by_cases hd : documents.isEmpty
  · rw [if_pos hd]
    have : documents = [] := List.isEmpty_iff.mp hd
    subst this
    simp [batches_nil, countDocuments]
  · rw [if_neg hd]
    obtain ⟨h2, h1⟩ := addDocumentsGo_spec raises (batches batchSize documents) nextId store
    have htotal : ((batches batchSize documents).map List.length).sum = documents.length := by
      rw [← List.length_flatten, batches_flatten batchSize hbs documents]
    have hsplit := sum_map_filter_split List.length (fun b => !raises b)
      (batches batchSize documents)
    refine ⟨h2, ?_, ?_⟩
    · rw [h1]
      have hnn : (batches batchSize documents).filter
            (fun x => !(!raises x)) = (batches batchSize documents).filter (fun x => raises x) := by
        apply List.filter_congr
        intro x _
        simp
      rw [hnn] at hsplit
      rw [← htotal, ← hsplit]
    · unfold countDocuments
      rw [h2, h1, List.length_append, List.length_flatten]

theorem claim1_batch_accounting_witness :
    (addDocuments (fun b => b.contains 2) [1, 2, 3] 2 0 ([] : List ℕ)).2
        = [] ++ ((batches 2 [1, 2, 3]).filter (fun b => !b.contains 2)).flatten ∧
    (addDocuments (fun b => b.contains 2) [1, 2, 3] 2 0 ([] : List ℕ)).1.length
        + (((batches 2 [1, 2, 3]).filter (fun b => b.contains 2)).map List.length).sum
        = ([1, 2, 3] : List ℕ).length ∧
    countDocuments (addDocuments (fun b => b.contains 2) [1, 2, 3] 2 0 ([] : List ℕ)).2
        = countDocuments ([] : List ℕ)
          + (addDocuments (fun b => b.contains 2) [1, 2, 3] 2 0 ([] : List ℕ)).1.length :=
  claim1_batch_accounting (fun b => b.contains 2) [1, 2, 3] 2 0 [] (by decide)

/-- **C2 (counterexample)**: `VectorStore.search` passes the collection's
raw cosine distances through unchanged.  For a stored record at cosine
distance `2`, the caller of the store's `search` receives `2`, not the
normalized similarity `1 - 2/2 = 0`: the store performs no normalization. -/
theorem claim2_counterexample :
    (vectorStoreSearch (.ok ⟨[["alpha".data]], [[[]]], [[2]], [["id0".data]]⟩)).distances
      = [(2 : ℚ)] ∧
    (2 : ℚ) ≠ 1 - 2 / 2 := by
  constructor
  · rfl
  · norm_num

theorem mem_of_mem_enum {α : Type} (l : List α) (p : ℕ × α) (h : p ∈ l.enum) : p.2 ∈ l := by
  obtain ⟨i, x⟩ := p
  have := List.mem_enumFrom h
  simp only [Nat.zero_le, true_and, Nat.zero_add, Nat.sub_zero] at this
  rw [this.2]
  exact List.getElem_mem this.1

/-- **C2 (amended)**: the normalization `s = 1 - d/2` is performed by the
*Retriever*, not by the Vector Store: `VectorStore.search` returns the raw
cosine distances of the underlying collection unchanged, while every
`score` produced by `Retriever._format_results` and every `vector_score`
produced by `Retriever._rerank_with_cross_encoder` equals `1 - d/2` for
one of the store's raw distances `d`.  Callers of the Retriever receive
similarities; callers of the store's `search` receive raw distances. -/
theorem claim2_normalization_in_retriever :
    (∀ raw : ChromaQueryResult,
      (vectorStoreSearch (.ok raw)).distances = raw.distances.headD []) ∧
    (∀ (results : SearchResult) (n : ℕ) (x : FormattedResult),
      x ∈ formatResults results n → ∃ d ∈ results.distances, x.score = 1 - d / 2) ∧
    (∀ (cross : Str → Str → ℚ) (query : Str) (results : SearchResult) (n : ℕ)
        (out : List ScoredResult) (x : ScoredResult),
      rerankWithCrossEncoder cross query results n = .ok out → x ∈ out →
        ∃ d ∈ results.distances, x.vector_score = 1 - d / 2) := by
  refine ⟨fun raw => rfl, ?_, ?_⟩
  · intro results n x hx
    unfold formatResults at hx
    obtain ⟨q, hq, hqx⟩ := List.mem_map.mp hx
    have hq' : q ∈ zip4 results.documents results.metadatas results.distances _ :=
      List.mem_of_mem_take hq
    refine ⟨q.2.2.1, zip4_dist_mem _ _ _ _ q hq', ?_⟩
    rw [← hqx]
  · intro cross query results n out x hok hx
    unfold rerankWithCrossEncoder at hok
    by_cases hemp : results.documents.isEmpty
    · rw [if_pos hemp] at hok
      cases hok
      cases hx
    · rw [if_neg hemp] at hok
      cases hembs : results.embeddings with
      | none => rw [hembs] at hok; cases hok
      | some embs =>
        rw [hembs] at hok
        simp only [Except.ok.injEq] at hok
        subst hok
        have hx' := List.mem_of_mem_take hx
        have hx'' := (List.mergeSort_perm _ _).mem_iff.mp hx'
        obtain ⟨p, hp, hpx⟩ := List.mem_map.mp hx''
        have hp' : p.2 ∈ zip4 results.documents results.metadatas results.distances embs :=
          mem_of_mem_enum _ p hp
        refine ⟨p.2.2.2.1, zip4_dist_mem _ _ _ _ p.2 hp', ?_⟩
        rw [← hpx]

/-- A one-document `VectorStore.search` output without embeddings, used to
exercise the format path. -/
def sampleSearchNoEmb : SearchResult :=
  ⟨["alpha".data], [[]], [(2 : ℚ)], ["id0".data], none⟩

/-- The same output with an embeddings list attached, used to exercise the
rerank path. -/
def sampleSearchEmb : SearchResult :=
  ⟨["alpha".data], [[]], [(2 : ℚ)], ["id0".data], some [[(1 : ℚ)]]⟩

theorem claim2_normalization_in_retriever_witness :
    ((vectorStoreSearch
        (.ok ⟨[["alpha".data]], [[[]]], [[2]], [["id0".data]]⟩)).distances
      = ([[(2 : ℚ)]] : List (List ℚ)).headD []) ∧
    (∃ d ∈ sampleSearchNoEmb.distances,
      (FormattedResult.mk "alpha".data [] (1 - (2 : ℚ) / 2) none).score = 1 - d / 2) ∧
    (∃ d ∈ sampleSearchEmb.distances,
      (ScoredResult.mk "alpha".data [] (1 - (2 : ℚ) / 2) 1
          ((1 - (2 : ℚ) / 2) * (4 / 10) + 1 * (6 / 10)) [(1 : ℚ)]).vector_score
        = 1 - d / 2) := by
  refine ⟨claim2_normalization_in_retriever.1 _, ?_, ?_⟩
  · exact claim2_normalization_in_retriever.2.1 sampleSearchNoEmb 1 _ (by
      show _ ∈ formatResults sampleSearchNoEmb 1
      rw [show formatResults sampleSearchNoEmb 1
        = [FormattedResult.mk "alpha".data [] (1 - (2 : ℚ) / 2) none] from rfl]
      exact List.mem_singleton_self _)
  · refine claim2_normalization_in_retriever.2.2 (fun _ _ => 1) "q".data
      sampleSearchEmb 1
      [ScoredResult.mk "alpha".data [] (1 - (2 : ℚ) / 2) 1
        ((1 - (2 : ℚ) / 2) * (4 / 10) + 1 * (6 / 10)) [(1 : ℚ)]]
      (ScoredResult.mk "alpha".data [] (1 - (2 : ℚ) / 2) 1
        ((1 - (2 : ℚ) / 2) * (4 / 10) + 1 * (6 / 10)) [(1 : ℚ)]) ?_ ?_
    · unfold rerankWithCrossEncoder
      rw [if_neg (by decide)]
      show Except.ok (([ScoredResult.mk "alpha".data [] (1 - (2 : ℚ) / 2) 1
          ((1 - (2 : ℚ) / 2) * (4 / 10) + 1 * (6 / 10)) [(1 : ℚ)]].mergeSort
            (fun a b => decide (b.combined_score ≤ a.combined_score))).take 1) = _
      rw [List.mergeSort_singleton]
      rfl
    · exact List.mem_singleton_self _

/-- A three-candidate collection answer with ascending cosine distances
(nearest first, as ChromaDB returns them). -/
def sampleRaw3 : ChromaQueryResult :=
  ⟨[["alpha".data, "beta".data, "gamma".data]], [[[], [], []]],
   [[(0 : ℚ), 1, 2]], [["i1".data, "i2".data, "i3".data]]⟩

/-- **C4**: with reranking enabled and a loaded cross-encoder,
`Retriever.retrieve` never returns a reranked list at all: for any
non-empty candidate set it raises `KeyError('embeddings')`, because
`_rerank_with_cross_encoder` reads `results['embeddings']` from the
dictionary built by `VectorStore.search`, which contains only the keys
`documents`, `metadatas`, `distances` and `ids` (the store drops the
embeddings it was asked to `include`).  The claim's non-rerank half does
hold: with reranking disabled the call returns at most `n_results`
results whose scores are non-increasing (the store's ascending-distance
order is preserved). -/
theorem claim4_rerank_keyerror :
    (retrieve (some fun _ _ => (1 : ℚ)) true (.ok sampleRaw3) "q".data 2
      = .error "KeyError: 'embeddings'".data) ∧
    (retrieve (some fun _ _ => (1 : ℚ)) false (.ok sampleRaw3) "q".data 2
      = .ok (.plain
          [FormattedResult.mk "alpha".data [] (1 - (0 : ℚ) / 2) none,
           FormattedResult.mk "beta".data [] (1 - (1 : ℚ) / 2) none])) ∧
    ([FormattedResult.mk "alpha".data [] (1 - (0 : ℚ) / 2) none,
      FormattedResult.mk "beta".data [] (1 - (1 : ℚ) / 2) none].length ≤ 2) ∧
    (1 - (1 : ℚ) / 2 ≤ 1 - (0 : ℚ) / 2) := by
  refine ⟨rfl, rfl, by decide, by norm_num⟩

/-- Every `try`-block outcome is either an exception or a `partial` /
`success` result without an `error` field. -/
theorem processBody_cases (ex : Extractors) (sentsE : Str → Except Str (List Str))
    (encode : Str → Except Str (List ℚ)) (path : Str) (st : FileStat)
    (metadata : MetaDict) :
    (∃ e, processBody ex sentsE encode path st metadata = .error e) ∨
    (∃ r, processBody ex sentsE encode path st metadata = .ok r ∧ r.error = none ∧
      (r.status = "partial".data ∨ r.status = "success".data)) := by
  cases hex : extractContent ex path with
  | error e => exact Or.inl ⟨e, by simp only [processBody, hex]⟩
  | ok content =>
    by_cases hemp : content.isEmpty
    · exact Or.inl ⟨"Failed to extract content from ".data ++ path,
        by simp only [processBody, hex, hemp, if_true]⟩
    · have hemp' : content.isEmpty = false := by simpa using hemp
      cases hch : chunkContentE sentsE content with
      | error e =>
        exact Or.inl ⟨e, by
          simp only [processBody, hex, hemp', Bool.false_eq_true, if_false, hch]⟩
      | ok chunks =>
        by_cases hce : chunks.isEmpty
        · refine Or.inr ⟨⟨[], dictUpdate metadata (fileMeta path st), 0,
            "partial".data, none⟩, ?_, rfl, Or.inl rfl⟩
          simp only [processBody, hex, hemp', Bool.false_eq_true, if_false, hch, hce, if_true]
        · have hce' : chunks.isEmpty = false := by simpa using hce
          by_cases hpe : (embedLoop encode st path metadata chunks).isEmpty
          · refine Or.inr ⟨⟨embedLoop encode st path metadata chunks,
              dictUpdate metadata (fileMeta path st), 0, "partial".data, none⟩,
              ?_, rfl, Or.inl rfl⟩
            simp only [processBody, hex, hemp', Bool.false_eq_true, if_false, hch, hce',
              hpe, if_true]
          · have hpe' : (embedLoop encode st path metadata chunks).isEmpty = false := by
              simpa using hpe
            refine Or.inr ⟨⟨embedLoop encode st path metadata chunks,
              dictUpdate metadata (fileMeta path st), 0, "success".data, none⟩,
              ?_, rfl, Or.inr rfl⟩
            simp only [processBody, hex, hemp', Bool.false_eq_true, if_false, hch, hce', hpe']

/-- **C8 (counterexample)**: a missing file does *not* produce a
`status='failed'` ProcessingResult — `process_document` raises
`FileNotFoundError` to the caller before its `try` block begins (the
`raise` is outside the `try`, and the docstring itself documents the
raise). -/
theorem claim8_counterexample :
    processDocument ⟨.ok "x".data, .ok "x".data, .ok "x".data⟩ (fun s => .ok [s])
        (fun _ => .ok [1]) "missing.txt".data none []
      = .error ("File not found: ".data ++ "missing.txt".data) ∧
    ∀ r : ProcResult,
      processDocument ⟨.ok "x".data, .ok "x".data, .ok "x".data⟩ (fun s => .ok [s])
          (fun _ => .ok [1]) "missing.txt".data none [] ≠ .ok r := by
  refine ⟨rfl, ?_⟩
  intro r h
  rw [show processDocument ⟨.ok "x".data, .ok "x".data, .ok "x".data⟩ (fun s => .ok [s])
      (fun _ => .ok [1]) "missing.txt".data none []
    = .error ("File not found: ".data ++ "missing.txt".data) from rfl] at h
  cases h

/-- The `status='failed'` ProcessingResult that `process_document`'s
`except` clause builds from a caught exception `e`. -/
def failedResult (path : Str) (metadata : MetaDict) (e : Str) : ProcResult :=
  ⟨[], dictUpdate metadata [("file_path".data, Value.vStr path)], 0, "failed".data, some e⟩

/-- Any exception raised inside the `try` block is caught and converted to
the `failed` result carrying the exception's message. -/
theorem processDocument_of_body_error (ex : Extractors)
    (sentsE : Str → Except Str (List Str)) (encode : Str → Except Str (List ℚ))
    (path : Str) (st : FileStat) (metadata : MetaDict) (e : Str)
    (he : processBody ex sentsE encode path st metadata = .error e) :
    processDocument ex sentsE encode path (some st) metadata
      = .ok (failedResult path metadata e) := by
  simp only [processDocument, he, failedResult]

/-- **C8 (amended)**: a *missing file* raises `FileNotFoundError` to the
caller; every other document-level fatal error is caught and returned as a
ProcessingResult with `status='failed'` and a human-readable `error`
string — an unsupported extension yields the `Unsupported file format`
message, a failed extraction yields the extractor's message, an empty
extraction yields the `Failed to extract content` message, and a chunking
(spaCy) failure yields that exception's message; and when extraction and
chunking succeed, per-chunk embedding failures never abort the call — the
result is `partial`/`success` with at most one processed chunk per raw
chunk. -/
theorem claim8_failure_semantics (ex : Extractors) (sentsE : Str → Except Str (List Str))
    (encode : Str → Except Str (List ℚ)) (path : Str) (st : FileStat)
    (metadata : MetaDict) :
    (processDocument ex sentsE encode path none metadata
        = .error ("File not found: ".data ++ path)) ∧
    (∃ r, processDocument ex sentsE encode path (some st) metadata = .ok r ∧
      (r.status = "failed".data → r.error.isSome) ∧
      (r.status ≠ "failed".data → r.error = none)) ∧
    (pyLower (pySuffix (pyName path)) ≠ ".pdf".data →
     pyLower (pySuffix (pyName path)) ≠ ".epub".data →
     pyLower (pySuffix (pyName path)) ≠ ".txt".data →
     pyLower (pySuffix (pyName path)) ≠ ".md".data →
     pyLower (pySuffix (pyName path)) ≠ ".markdown".data →
      processDocument ex sentsE encode path (some st) metadata
        = .ok (failedResult path metadata
            ("Unsupported file format: ".data ++ pyLower (pySuffix (pyName path))))) ∧
    (∀ e, extractContent ex path = .error e →
      processDocument ex sentsE encode path (some st) metadata
        = .ok (failedResult path metadata e)) ∧
    (∀ content, extractContent ex path = .ok content → content.isEmpty = true →
      processDocument ex sentsE encode path (some st) metadata
        = .ok (failedResult path metadata
            ("Failed to extract content from ".data ++ path))) ∧
    (∀ content e, extractContent ex path = .ok content → content.isEmpty = false →
      chunkContentE sentsE content = .error e →
      processDocument ex sentsE encode path (some st) metadata
        = .ok (failedResult path metadata e)) ∧
    (∀ content chunks, extractContent ex path = .ok content → content.isEmpty = false →
      chunkContentE sentsE content = .ok chunks → chunks ≠ [] →
      ∃ r, processDocument ex sentsE encode path (some st) metadata = .ok r ∧
        r.chunks.length ≤ chunks.length ∧
        (r.status = "success".data ∨ r.status = "partial".data)) := by
  refine ⟨rfl, ?_, ?_, ?_, ?_, ?_, ?_⟩
  · rcases processBody_cases ex sentsE encode path st metadata with ⟨e, he⟩ | ⟨r, hr, herr, hst⟩
    · refine ⟨⟨[], dictUpdate metadata [("file_path".data, Value.vStr path)], 0,
        "failed".data, some e⟩, ?_, fun _ => rfl, fun hne => absurd rfl hne⟩
      simp only [processDocument, he]
    · refine ⟨r, ?_, ?_, fun _ => herr⟩
      · simp only [processDocument, hr]
      · intro hfail
        rcases hst with hst | hst <;> rw [hfail] at hst <;> simp at hst
  · intro h1 h2 h3 h4 h5
    have hex : extractContent ex path
        = .error ("Unsupported file format: ".data ++ pyLower (pySuffix (pyName path))) := by
      simp only [extractContent]
      rw [if_neg h1, if_neg h2, if_neg ?_]
      rintro (h | h | h)
      · exact h3 h
      · exact h4 h
      · exact h5 h
    have hbody : processBody ex sentsE encode path st metadata
        = .error ("Unsupported file format: ".data ++ pyLower (pySuffix (pyName path))) := by
      simp only [processBody, hex]
    exact processDocument_of_body_error ex sentsE encode path st metadata _ hbody
  · intro e hex
    have hbody : processBody ex sentsE encode path st metadata = .error e := by
      simp only [processBody, hex]
    exact processDocument_of_body_error ex sentsE encode path st metadata e hbody
  · intro content hex hemp
    have hbody : processBody ex sentsE encode path st metadata
        = .error ("Failed to extract content from ".data ++ path) := by
      simp only [processBody, hex, hemp, if_true]
    exact processDocument_of_body_error ex sentsE encode path st metadata _ hbody
  · intro content e hex hne hch
    have hbody : processBody ex sentsE encode path st metadata = .error e := by
      simp only [processBody, hex, hne, Bool.false_eq_true, if_false, hch]
    exact processDocument_of_body_error ex sentsE encode path st metadata e hbody
  · intro content chunks hex hne hch hcne
    have hcne' : chunks.isEmpty = false := by
      cases chunks with
      | nil => exact absurd rfl hcne
      | cons a l => rfl
    have hbody : processBody ex sentsE encode path st metadata = .ok
        { chunks := embedLoop encode st path metadata chunks,
          metadata := dictUpdate metadata (fileMeta path st),
          processing_time := 0,
          status := if (embedLoop encode st path metadata chunks).isEmpty
            then "partial".data else "success".data,
          error := none } := by
      simp only [processBody, hex, hne, Bool.false_eq_true, if_false, hch, hcne']
    refine ⟨⟨embedLoop encode st path metadata chunks,
        dictUpdate metadata (fileMeta path st), 0,
        (if (embedLoop encode st path metadata chunks).isEmpty
          then "partial".data else "success".data), none⟩, ?_, ?_, ?_⟩
    · simp only [processDocument, hbody]
    · show (embedLoop encode st path metadata chunks).length ≤ chunks.length
      calc (embedLoop encode st path metadata chunks).length
            ≤ (chunks.enum).length := List.length_filterMap_le _ _
        _ = chunks.length := List.enum_length
    · by_cases hpe : (embedLoop encode st path metadata chunks).isEmpty
      · right
        show (if (embedLoop encode st path metadata chunks).isEmpty
            then "partial".data else "success".data) = "partial".data
        rw [if_pos hpe]
      · left
        show (if (embedLoop encode st path metadata chunks).isEmpty
            then "partial".data else "success".data) = "success".data
        rw [if_neg hpe]

theorem claim8_failure_semantics_witness :
    (processDocument ⟨.error "e1".data, .error "e2".data, .ok "Hello world.".data⟩
        (fun c => .ok [c]) (fun _ => .ok [(1 : ℚ)]) "a.txt".data none []
      = .error ("File not found: ".data ++ "a.txt".data)) ∧
    (processDocument ⟨.error "e1".data, .error "e2".data, .ok "Hello world.".data⟩
        (fun c => .ok [c]) (fun _ => .ok [(1 : ℚ)]) "a.xyz".data
        (some ⟨1, 12, "c".data, "m".data, "/a.xyz".data⟩) []
      = .ok (failedResult "a.xyz".data []
          ("Unsupported file format: ".data ++ pyLower (pySuffix (pyName "a.xyz".data))))) ∧
    (processDocument ⟨.error "e1".data, .error "e2".data, .error "boom".data⟩
        (fun c => .ok [c]) (fun _ => .ok [(1 : ℚ)]) "a.txt".data
        (some ⟨1, 12, "c".data, "m".data, "/a.txt".data⟩) []
      = .ok (failedResult "a.txt".data [] "boom".data)) ∧
    (processDocument ⟨.error "e1".data, .error "e2".data, .ok "".data⟩
        (fun c => .ok [c]) (fun _ => .ok [(1 : ℚ)]) "a.txt".data
        (some ⟨1, 12, "c".data, "m".data, "/a.txt".data⟩) []
      = .ok (failedResult "a.txt".data []
          ("Failed to extract content from ".data ++ "a.txt".data))) ∧
    (processDocument ⟨.error "e1".data, .error "e2".data, .ok "Hello world.".data⟩
        (fun _ => .error "spacy".data) (fun _ => .ok [(1 : ℚ)]) "a.txt".data
        (some ⟨1, 12, "c".data, "m".data, "/a.txt".data⟩) []
      = .ok (failedResult "a.txt".data [] "spacy".data)) ∧
    (∃ r, processDocument ⟨.error "e1".data, .error "e2".data, .ok "Hello world.".data⟩
        (fun c => .ok [c]) (fun _ => .ok [(1 : ℚ)]) "a.txt".data
        (some ⟨1, 12, "c".data, "m".data, "/a.txt".data⟩) [] = .ok r ∧
      r.chunks.length ≤ ([Chunk.mk "Hello world.".data 2] : List Chunk).length ∧
      (r.status = "success".data ∨ r.status = "partial".data)) := by
  refine ⟨?_, ?_, ?_, ?_, ?_, ?_⟩
  · exact (claim8_failure_semantics
      ⟨.error "e1".data, .error "e2".data, .ok "Hello world.".data⟩
      (fun c => .ok [c]) (fun _ => .ok [(1 : ℚ)]) "a.txt".data
      ⟨1, 12, "c".data, "m".data, "/a.txt".data⟩ []).1
  · exact (claim8_failure_semantics
      ⟨.error "e1".data, .error "e2".data, .ok "Hello world.".data⟩
      (fun c => .ok [c]) (fun _ => .ok [(1 : ℚ)]) "a.xyz".data
      ⟨1, 12, "c".data, "m".data, "/a.xyz".data⟩ []).2.2.1
      (by decide) (by decide) (by decide) (by decide) (by decide)
  · exact (claim8_failure_semantics
      ⟨.error "e1".data, .error "e2".data, .error "boom".data⟩
      (fun c => .ok [c]) (fun _ => .ok [(1 : ℚ)]) "a.txt".data
      ⟨1, 12, "c".data, "m".data, "/a.txt".data⟩ []).2.2.2.1 "boom".data rfl
  · exact (claim8_failure_semantics
      ⟨.error "e1".data, .error "e2".data, .ok "".data⟩
      (fun c => .ok [c]) (fun _ => .ok [(1 : ℚ)]) "a.txt".data
      ⟨1, 12, "c".data, "m".data, "/a.txt".data⟩ []).2.2.2.2.1 "".data rfl rfl
  · exact (claim8_failure_semantics
      ⟨.error "e1".data, .error "e2".data, .ok "Hello world.".data⟩
      (fun _ => .error "spacy".data) (fun _ => .ok [(1 : ℚ)]) "a.txt".data
      ⟨1, 12, "c".data, "m".data, "/a.txt".data⟩ []).2.2.2.2.2.1
      "Hello world.".data "spacy".data rfl rfl rfl
  · exact (claim8_failure_semantics
      ⟨.error "e1".data, .error "e2".data, .ok "Hello world.".data⟩
      (fun c => .ok [c]) (fun _ => .ok [(1 : ℚ)]) "a.txt".data
      ⟨1, 12, "c".data, "m".data, "/a.txt".data⟩ []).2.2.2.2.2.2
      "Hello world.".data [Chunk.mk "Hello world.".data 2] rfl rfl rfl (by decide)

/-- **C9 (counterexample)**: the caller-supplied value does *not* win in
the returned ProcessingResult's top-level metadata: that dict is built as
`{**(metadata or {}), **file_meta}`, so the file-derived value wins there.
A caller supplying `file_name='custom'` for the file `a.txt` reads back
`file_name='a.txt'` from the result's metadata. -/
theorem claim9_counterexample :
    ∃ r, processDocument ⟨.error "e1".data, .error "e2".data, .ok "Hello world.".data⟩
        (fun c => .ok [c]) (fun _ => .ok [(1 : ℚ)]) "a.txt".data
        (some ⟨1, 12, "c".data, "m".data, "/a.txt".data⟩)
        [("file_name".data, Value.vStr "custom".data)] = .ok r ∧
      alookup r.metadata "file_name".data = some (Value.vStr "a.txt".data) ∧
      Value.vStr "a.txt".data ≠ Value.vStr "custom".data := by
  refine ⟨_, rfl, by decide, by decide⟩

theorem mem_embedLoop_metadata (encode : Str → Except Str (List ℚ)) (st : FileStat)
    (path : Str) (metadata : MetaDict) (chunks : List Chunk) (c : ProcChunk)
    (hc : c ∈ embedLoop encode st path metadata chunks) :
    ∃ i ch, c.metadata = processedChunkMeta st path metadata chunks.length i ch := by
  unfold embedLoop at hc
  obtain ⟨p, hp, hpc⟩ := List.mem_filterMap.mp hc
  cases he : encode p.2.text with
  | error e => rw [he] at hpc; cases hpc
  | ok emb =>
    rw [he] at hpc
    simp only [Option.some.injEq] at hpc
    exact ⟨p.1, p.2, by rw [← hpc]⟩

/-- **C9 (amended)**: when caller metadata and file-derived metadata share
a key, the caller's value wins in every *chunk*'s merged metadata (caller
metadata is merged last there), but in the returned ProcessingResult's
top-level metadata the *file-derived* value wins (`file_meta` is merged
last there). -/
theorem claim9_metadata_precedence (ex : Extractors)
    (sentsE : Str → Except Str (List Str)) (encode : Str → Except Str (List ℚ))
    (path : Str) (st : FileStat) (m : MetaDict) (k : Str) (v w : Value)
    (hm : alookup m k = some v) (hf : alookup (fileMeta path st) k = some w)
    (r : ProcResult) (hr : processDocument ex sentsE encode path (some st) m = .ok r)
    (hstatus : r.status ≠ "failed".data) :
    alookup r.metadata k = some w ∧
    ∀ c ∈ r.chunks, alookup c.metadata k = some v := by
  have hfail : ∀ e, processBody ex sentsE encode path st m = .error e → False := by
    intro e he
    rw [show processDocument ex sentsE encode path (some st) m = .ok
        ⟨[], dictUpdate m [("file_path".data, Value.vStr path)], 0,
          "failed".data, some e⟩ from by simp only [processDocument, he]] at hr
    simp only [Except.ok.injEq] at hr
    exact hstatus (by rw [← hr])
  rcases processBody_cases ex sentsE encode path st m with ⟨e, he⟩ | ⟨r', hr', herr, hst⟩
  · exact absurd he (fun h => hfail e h)
  · have hrr : r' = r := by
      rw [show processDocument ex sentsE encode path (some st) m = .ok r' from by
        simp only [processDocument, hr']] at hr
      simpa using hr
    subst hrr
    -- reconstruct the shape of r' from the body's branches
    cases hex : extractContent ex path with
    | error e =>
      have hthis : processBody ex sentsE encode path st m = .error e := by
        simp only [processBody, hex]
      exact absurd hthis (fun h => hfail e h)
    | ok content =>
      by_cases hemp : content.isEmpty
      · have hthis : processBody ex sentsE encode path st m
            = .error ("Failed to extract content from ".data ++ path) := by
          simp only [processBody, hex, hemp, if_true]
        exact absurd hthis (fun h => hfail _ h)
      · have hemp' : content.isEmpty = false := by simpa using hemp
        cases hch : chunkContentE sentsE content with
        | error e =>
          have hthis : processBody ex sentsE encode path st m = .error e := by
            simp only [processBody, hex, hemp', Bool.false_eq_true, if_false, hch]
          exact absurd hthis (fun h => hfail e h)
        | ok chunks =>
          by_cases hce : chunks.isEmpty
          · have hbody : processBody ex sentsE encode path st m = .ok
                ⟨[], dictUpdate m (fileMeta path st), 0, "partial".data, none⟩ := by
              simp only [processBody, hex, hemp', Bool.false_eq_true, if_false, hch,
                hce, if_true]
            rw [hbody] at hr'
            simp only [Except.ok.injEq] at hr'
            rw [← hr']
            refine ⟨?_, by intro c hc; cases hc⟩
            rw [alookup_dictUpdate, hf]
            rfl
          · have hce' : chunks.isEmpty = false := by simpa using hce
            have hbody : processBody ex sentsE encode path st m = .ok
                ⟨embedLoop encode st path m chunks,
                 dictUpdate m (fileMeta path st), 0,
                 (if (embedLoop encode st path m chunks).isEmpty
                   then "partial".data else "success".data), none⟩ := by
              simp only [processBody, hex, hemp', Bool.false_eq_true, if_false, hch, hce']
            rw [hbody] at hr'
            simp only [Except.ok.injEq] at hr'
            rw [← hr']
            constructor
            · rw [alookup_dictUpdate, hf]
              rfl
            · intro c hc
              obtain ⟨i, ch, hmeta⟩ := mem_embedLoop_metadata encode st path m chunks c hc
              rw [hmeta]
              unfold processedChunkMeta
              rw [alookup_dictUpdate, hm]
              rfl

theorem claim9_metadata_precedence_witness :
    ∃ r, processDocument ⟨.error "e1".data, .error "e2".data, .ok "Hello world.".data⟩
        (fun c => .ok [c]) (fun _ => .ok [(1 : ℚ)]) "a.txt".data
        (some ⟨1, 12, "c".data, "m".data, "/a.txt".data⟩)
        [("file_name".data, Value.vStr "custom".data)] = .ok r ∧
      alookup r.metadata "file_name".data = some (Value.vStr "a.txt".data) ∧
      ∀ c ∈ r.chunks, alookup c.metadata "file_name".data
        = some (Value.vStr "custom".data) := by
  refine ⟨_, rfl, ?_⟩
  exact claim9_metadata_precedence
    ⟨.error "e1".data, .error "e2".data, .ok "Hello world.".data⟩
    (fun c => .ok [c]) (fun _ => .ok [(1 : ℚ)]) "a.txt".data
    ⟨1, 12, "c".data, "m".data, "/a.txt".data⟩
    [("file_name".data, Value.vStr "custom".data)]
    "file_name".data (Value.vStr "custom".data) (Value.vStr "a.txt".data)
    (by decide) (by decide) _ rfl (by decide)

/-- **C7**: the cache fingerprint is a deterministic function of exactly
`(file_name, file_size, file_mtime truncated to whole seconds,
sorted-serialized caller metadata)`: mtimes with equal truncation give the
same fingerprint, while changing the size, moving the mtime by at least
one second, or changing the (canonically key-sorted) metadata each change
the key string and hence the fingerprint (assuming the MD5 stand-in `hash`
is injective, the idealization of a collision-resistant hash; mtimes are
non-negative as returned by `os.stat`). -/
theorem claim7_cache_key (hash : Str → Str) (hinj : Function.Injective hash)
    (name : Str) (size size' : ℕ) (mtime mtime' : ℚ) (m m' : MetaDict) :
    (pyTrunc mtime = pyTrunc mtime' →
      generateCacheKey hash name size mtime m = generateCacheKey hash name size mtime' m) ∧
    (0 ≤ mtime → size ≠ size' →
      generateCacheKey hash name size mtime m ≠ generateCacheKey hash name size' mtime m) ∧
    (0 ≤ mtime → mtime + 1 ≤ mtime' →
      generateCacheKey hash name size mtime m ≠ generateCacheKey hash name size mtime' m) ∧
    (0 ≤ mtime → SortedDict m → SortedDict m' → m ≠ m' →
      generateCacheKey hash name size mtime m ≠ generateCacheKey hash name size mtime m') := by
  refine ⟨?_, ?_, ?_, ?_⟩
  · intro htr
    unfold generateCacheKey cacheKeyString
    rw [htr]
  · intro hmt hsz h
    have hk := hinj h
    exact hsz (cacheKeyString_cancel name size size' mtime mtime m m hmt hmt hk).1
  · intro hmt hgap h
    have hmt' : (0 : ℚ) ≤ mtime' := le_trans (by linarith) hgap
    have hk := hinj h
    have := (cacheKeyString_cancel name size size mtime mtime' m m hmt hmt' hk).2.1
    exact absurd this (Int.ne_of_lt (pyTrunc_separates mtime mtime' hmt hgap))
  · intro hmt _ _ hmm h
    have hk := hinj h
    exact hmm (cacheKeyString_cancel name size size mtime mtime m m' hmt hmt hk).2.2

theorem claim7_cache_key_witness :
    (generateCacheKey id "a.txt".data 7 0 [("a".data, Value.vStr "x".data)]
        = generateCacheKey id "a.txt".data 7 0 [("a".data, Value.vStr "x".data)]) ∧
    (generateCacheKey id "a.txt".data 7 0 [("a".data, Value.vStr "x".data)]
        ≠ generateCacheKey id "a.txt".data 8 0 [("a".data, Value.vStr "x".data)]) ∧
    (generateCacheKey id "a.txt".data 7 0 [("a".data, Value.vStr "x".data)]
        ≠ generateCacheKey id "a.txt".data 7 1 [("a".data, Value.vStr "x".data)]) ∧
    (generateCacheKey id "a.txt".data 7 0 [("a".data, Value.vStr "x".data)]
        ≠ generateCacheKey id "a.txt".data 7 0 [("a".data, Value.vStr "y".data)]) := by
  refine ⟨?_, ?_, ?_, ?_⟩
  · exact (claim7_cache_key id (fun a b h => h) "a.txt".data 7 8 0 0
      [("a".data, Value.vStr "x".data)] [("a".data, Value.vStr "x".data)]).1 rfl
  · exact (claim7_cache_key id (fun a b h => h) "a.txt".data 7 8 0 0
      [("a".data, Value.vStr "x".data)] [("a".data, Value.vStr "x".data)]).2.1
      (le_refl 0) (by decide)
  · exact (claim7_cache_key id (fun a b h => h) "a.txt".data 7 8 0 1
      [("a".data, Value.vStr "x".data)] [("a".data, Value.vStr "x".data)]).2.2.1
      (le_refl 0) (by norm_num)
  · exact (claim7_cache_key id (fun a b h => h) "a.txt".data 7 8 0 0
      [("a".data, Value.vStr "x".data)] [("a".data, Value.vStr "y".data)]).2.2.2
      (le_refl 0) (by simp [SortedDict]) (by simp [SortedDict]) (by decide)

/-- **C6**: with caching enabled, `force_reprocess=false` and the file
unchanged, two consecutive `RAGService.process_document` calls return the
identical result; the second call is served from the cache, leaving the
service state (including the pipeline-run counter) untouched. -/
theorem claim6_cache_idempotence (hash : Str → Str) (processor : MetaDict → ProcResult)
    (raises : List ProcChunk → Bool) (name : Str) (size : ℕ) (mtime : ℚ)
    (metadata : MetaDict) (st₀ : SvcState) :
    ∃ r₁ s₁ r₂ s₂,
      svcProcessDocument hash true processor raises true name size mtime metadata false st₀
        = .ok (r₁, s₁) ∧
      svcProcessDocument hash true processor raises true name size mtime metadata false s₁
        = .ok (r₂, s₂) ∧
      r₂ = r₁ ∧ s₂ = s₁ ∧ s₂.pipelineRuns = s₁.pipelineRuns := by
  cases halook : alookup st₀.cache (generateCacheKey hash name size mtime metadata) with
  | some c =>
    refine ⟨c, st₀, c, st₀, ?_, ?_, rfl, rfl, rfl⟩
    · simp [svcProcessDocument, halook]
    · simp [svcProcessDocument, halook]
  | none =>
    refine ⟨⟨processor metadata,
        (addDocuments raises (processor metadata).chunks 100 st₀.nextId st₀.store).1⟩,
      ⟨dictUpdate st₀.cache [(generateCacheKey hash name size mtime metadata,
          ⟨processor metadata,
           (addDocuments raises (processor metadata).chunks 100 st₀.nextId st₀.store).1⟩)],
        (addDocuments raises (processor metadata).chunks 100 st₀.nextId st₀.store).2,
        st₀.nextId + (processor metadata).chunks.length, st₀.pipelineRuns + 1⟩,
      _, _, ?_, ?_, rfl, rfl, rfl⟩
    · simp [svcProcessDocument, halook]
    · have hhit : alookup (dictUpdate st₀.cache
          [(generateCacheKey hash name size mtime metadata,
            (⟨processor metadata,
             (addDocuments raises (processor metadata).chunks 100 st₀.nextId
                st₀.store).1⟩ : StoredResult))])
          (generateCacheKey hash name size mtime metadata)
          = some ⟨processor metadata,
              (addDocuments raises (processor metadata).chunks 100 st₀.nextId
                st₀.store).1⟩ := by
        rw [alookup_dictUpdate]
        show orO (if generateCacheKey hash name size mtime metadata
            = generateCacheKey hash name size mtime metadata
            then some _ else alookup [] _) _ = _
        rw [if_pos rfl]
        rfl
      simp [svcProcessDocument, hhit]
